import Mathlib

/-!
# Verification of the `hobbes` package manager core

Shallow embedding, in Lean 4, of the core of the `hobbes` local package
manager (asset scoring and selection, checksum verification, archive
extraction, manifest persistence, repo-spec parsing, install/update
pipelines), together with proofs settling the specification claims.

Python strings are modelled as Lean `String`s, machine integers as
`Int`/`Nat`, fallible operations as `Option`/`Except`, and the stateful
pipeline as explicit state passing.  Python's `str.lower` is modelled by
per-character ASCII lowercasing (every string the program compares is
ASCII).
-/

namespace Hobbes

/-! ## String primitives

`startsL p s` models "`s` starts with `p`", `hasSub p s` models
"`p` occurs as a contiguous substring of `s`" (the semantics of Python's
`in` operator on strings and of `re.search` for a metacharacter-free
pattern), `endsL p s` models `str.endswith`. -/

def startsL (p s : List Char) : Bool :=
  match p, s with
  | [], _ => true
  | _ :: _, [] => false
  | a :: as, b :: bs => a == b && startsL as bs

def hasSub (p s : List Char) : Bool :=
  startsL p s ||
    match s with
    | [] => false
    | _ :: t => hasSub p t

def endsL (p s : List Char) : Bool :=
  startsL p.reverse s.reverse

/-- Python `str.lower`, restricted to ASCII (per-character lowercasing). -/
def lowerS (s : String) : String :=
  ⟨s.data.map Char.toLower⟩

/-- Python `pattern in name` (substring test). -/
def strHas (s pat : String) : Bool :=
  hasSub pat.data s.data

/-- Python `name.endswith(pat)`. -/
def strEnds (s pat : String) : Bool :=
  endsL pat.data s.data

theorem startsL_iff (p s : List Char) :
    startsL p s = true ↔ ∃ r, s = p ++ r := by
  induction p generalizing s with
  | nil => simp [startsL]
  | cons a as ih =>
    cases s with
    | nil => simp [startsL]
    | cons b bs =>
      simp only [startsL, Bool.and_eq_true, beq_iff_eq, ih, List.cons_append,
        List.cons.injEq]
      constructor
      · rintro ⟨rfl, r, rfl⟩; exact ⟨r, rfl, rfl⟩
      · rintro ⟨r, rfl, rfl⟩; exact ⟨rfl, r, rfl⟩

theorem hasSub_iff (p s : List Char) :
    hasSub p s = true ↔ ∃ l r, s = l ++ p ++ r := by
  induction s with
  | nil =>
    simp only [hasSub, Bool.or_eq_true, startsL_iff]
    constructor
    · rintro (⟨r, h⟩ | h)
      · exact ⟨[], r, by simpa using h⟩
      · simp at h
    · rintro ⟨l, r, h⟩
      exact Or.inl ⟨r, by
        rcases List.append_eq_nil.mp (List.append_eq_nil.mp h.symm).1 with ⟨h1, h2⟩
        simp [h1, h2] at h ⊢; exact h⟩
  | cons b bs ih =>
    simp only [hasSub, Bool.or_eq_true, startsL_iff, ih]
    constructor
    · rintro (⟨r, h⟩ | ⟨l, r, h⟩)
      · exact ⟨[], r, by simpa using h⟩
      · exact ⟨b :: l, r, by simp [h]⟩
    · rintro ⟨l, r, h⟩
      cases l with
      | nil => exact Or.inl ⟨r, by simpa using h⟩
      | cons x xs =>
        right
        refine ⟨xs, r, ?_⟩
        simpa using (List.cons.injEq .. ▸ h :
          b = x ∧ bs = xs ++ p ++ r).2

theorem hasSub_trans {a b s : List Char} (h1 : hasSub a b = true)
    (h2 : hasSub b s = true) : hasSub a s = true := by
  rw [hasSub_iff] at h1 h2 ⊢
  obtain ⟨l1, r1, rfl⟩ := h1
  obtain ⟨l2, r2, rfl⟩ := h2
  exact ⟨l2 ++ l1, r1 ++ r2, by simp⟩

theorem hasSub_append_right (p l r : List Char) (h : hasSub p r = true) :
    hasSub p (l ++ r) = true := by
  rw [hasSub_iff] at h ⊢
  obtain ⟨x, y, rfl⟩ := h
  exact ⟨l ++ x, y, by simp⟩

/-! ## Data model (`models/release.py`) -/

/-- A GitHub release asset (`Asset` dataclass). -/
structure Asset where
  name : String
  download_url : String
  size : Nat
  content_type : String
deriving DecidableEq, Repr

/-- Normalized platform information (`PlatformInfo` dataclass). -/
structure PlatformInfo where
  os : String
  arch : String
deriving DecidableEq, Repr

/-! ## Asset matcher (`core/platform.py`) -/

/-- `OS_PATTERNS.get(os, [])` from `core/platform.py`. -/
def OS_PATTERNS (os : String) : List String :=
  if os = "darwin" then ["darwin", "macos", "mac", "osx", "apple"]
  else if os = "linux" then ["linux"]
  else if os = "windows" then ["windows", "win", "win64", "win32"]
  else []

/-- `ARCH_PATTERNS.get(arch, [])` from `core/platform.py`. -/
def ARCH_PATTERNS (arch : String) : List String :=
  if arch = "amd64" then ["amd64", "x86_64", "x64", "64bit"]
  else if arch = "arm64" then ["arm64", "aarch64"]
  else if arch = "386" then ["386", "i386", "i686", "x86", "32bit"]
  else []

/-- Archive-format bonus at the end of `score_asset` (lines 110-116). -/
def formatBonus (n : String) : Int :=
  if strEnds n ".tar.gz" || strEnds n ".tgz" then 10
  else if strEnds n ".zip" then 8
  else if strEnds n ".tar.xz" then 6
  else 0

/-- `score_asset(asset, platform_info)` from `core/platform.py`.

The Python body mutates a `score` accumulator with early returns; this is
the same computation with the accumulator threaded explicitly.  All
patterns are metacharacter-free, so `re.search(p, name, re.IGNORECASE)` on
the already-lowercased `name` with lowercase `p` is a substring test.
Lines 70-78 of the source (`has_valid_extension`) compute a value that is
never used (the branch body is `pass`) and are omitted. -/
def score_asset (asset : Asset) (platform_info : PlatformInfo) : Int :=
  let n := lowerS asset.name
  if (([".txt", ".md", ".sha256", ".sig", ".asc", ".sbom"] : List String).any
      fun ext => strEnds n ext) then -1
  else
    let os_matched := (OS_PATTERNS platform_info.os).any fun p => strHas n p
    let score1 : Int := if os_matched then 100 else 0
    let arch_matched := (ARCH_PATTERNS platform_info.arch).any fun p => strHas n p
    let score2 : Int := score1 + (if arch_matched then 50 else 0)
    if !os_matched &&
        !((["universal", "any", "all"] : List String).any fun p => strHas n p) then
      -1
    else
      let score3 : Int := if !os_matched then score2 + 10 else score2
      let score4 : Int := if os_matched && arch_matched then score3 + 25 else score3
      score4 + formatBonus n

/-- The scoring algorithm as the specification words it (§4.3 of the spec):
reject non-binary suffixes; `+100` for an OS-substring match, else `+10`
for a `universal`/`any`/`all` surrogate, else no match; `+50` for an
architecture match; `+25` when both OS and architecture matched; archive
format bonus; return the sum. -/
def spec_score (asset : Asset) (platform_info : PlatformInfo) : Int :=
  let n := lowerS asset.name
  if (([".txt", ".md", ".sha256", ".sig", ".asc", ".sbom"] : List String).any
      fun ext => strEnds n ext) then -1
  else
    let osMatch := (OS_PATTERNS platform_info.os).any fun p => strHas n p
    let universal := (["universal", "any", "all"] : List String).any fun p => strHas n p
    let archMatch := (ARCH_PATTERNS platform_info.arch).any fun p => strHas n p
    if !osMatch && !universal then -1
    else
      (if osMatch then (100 : Int) else 10) +
        (if archMatch then 50 else 0) +
        (if osMatch && archMatch then 25 else 0) +
        formatBonus n

/-- C1: `score_asset` computes exactly the specification's scoring
algorithm: the non-binary-suffix rejection, the mandatory OS match (or the
`universal`/`any`/`all` surrogate worth `+10` instead of `+100`), `+50`
for an architecture match, `+25` when both matched, and the archive-format
bonus of `+10`/`+8`/`+6`. -/
theorem C1_score_asset_matches_spec (asset : Asset) (platform_info : PlatformInfo) :
    score_asset asset platform_info = spec_score asset platform_info := by
  unfold score_asset spec_score
  by_cases hskip : (([".txt", ".md", ".sha256", ".sig", ".asc", ".sbom"] : List String).any
      fun ext => strEnds (lowerS asset.name) ext) = true
  · simp [hskip]
  · simp only [Bool.not_eq_true] at hskip
    simp only [hskip, if_false, Bool.false_eq_true]
    by_cases hos : (OS_PATTERNS platform_info.os).any (fun p => strHas (lowerS asset.name) p) = true
    · by_cases harch : (ARCH_PATTERNS platform_info.arch).any
          (fun p => strHas (lowerS asset.name) p) = true
      · simp [hos, harch]
      · simp only [Bool.not_eq_true] at harch
        simp [hos, harch]
    · simp only [Bool.not_eq_true] at hos
      by_cases huniv : ((["universal", "any", "all"] : List String).any
          fun p => strHas (lowerS asset.name) p) = true
      · by_cases harch : (ARCH_PATTERNS platform_info.arch).any
            (fun p => strHas (lowerS asset.name) p) = true
        · simp [hos, huniv, harch]
        · simp only [Bool.not_eq_true] at harch
          simp [hos, huniv, harch]
      · simp only [Bool.not_eq_true] at huniv
        simp [hos, huniv]

/-- The comparison used by `scored.sort(key=lambda x: x[0], reverse=True)`:
descending by score.  Python's sort is stable; `List.insertionSort` with a
non-strict relation is the canonical stable sort, so it models the call
exactly (a stable sort's output is determined by the key order alone). -/
def scoreGE (x y : Int × Asset) : Prop := y.1 ≤ x.1

instance : DecidableRel scoreGE := fun x y => Int.decLe y.1 x.1

instance : IsTotal (Int × Asset) scoreGE :=
  ⟨fun x y => (Int.le_total y.1 x.1).elim Or.inl Or.inr⟩

instance : IsTrans (Int × Asset) scoreGE :=
  ⟨fun _ _ _ h1 h2 => le_trans h2 h1⟩

/-- `find_best_assets(assets, platform_info)` from `core/platform.py`:
score every asset, keep scores `>= 0`, stable-sort descending by score,
return the assets sharing the top score. -/
def find_best_assets (assets : List Asset) (platform_info : PlatformInfo) : List Asset :=
  let scored := (assets.map fun a => (score_asset a platform_info, a)).filter
    fun p => decide (0 ≤ p.1)
  match List.insertionSort scoreGE scored with
  | [] => []
  | top :: rest => ((top :: rest).filter fun p => p.1 == top.1).map Prod.snd

/-- `find_best_asset(assets, platform_info)` from `core/platform.py`. -/
def find_best_asset (assets : List Asset) (platform_info : PlatformInfo) : Option Asset :=
  (find_best_assets assets platform_info).head?

theorem score_asset_neg_one_or_nonneg (a : Asset) (pi : PlatformInfo) :
    score_asset a pi = -1 ∨ 0 ≤ score_asset a pi := by
  simp only [score_asset, formatBonus]
  split_ifs <;> simp_all

theorem filter_orderedInsert_of_ne {f : Int × Asset → Bool} {x : Int × Asset}
    (hx : f x = false) (l : List (Int × Asset)) :
    (List.orderedInsert scoreGE x l).filter f = l.filter f := by
  induction l with
  | nil => simp [List.orderedInsert, hx]
  | cons y ys ih =>
    by_cases h : scoreGE x y
    · simp [List.orderedInsert, h, hx, List.filter_cons]
    · simp only [List.orderedInsert, if_neg h, List.filter_cons]
      rw [ih]

theorem filter_insertionSort_top (top : Int)
    (l : List (Int × Asset)) (hmax : ∀ q ∈ l, q.1 ≤ top) :
    (List.insertionSort scoreGE l).filter (fun p => p.1 == top) =
      l.filter (fun p => p.1 == top) := by
  induction l with
  | nil => rfl
  | cons x xs ih =>
    have hxs : ∀ q ∈ xs, q.1 ≤ top := fun q hq => hmax q (List.mem_cons_of_mem _ hq)
    by_cases hx : x.1 = top
    · have hge : ∀ b ∈ List.insertionSort scoreGE xs, scoreGE x b := by
        intro b hb
        have : b ∈ xs := (List.mem_insertionSort scoreGE).mp hb
        exact le_of_le_of_eq (hxs b this) hx.symm
      have : List.insertionSort scoreGE (x :: xs) =
          x :: List.insertionSort scoreGE xs := by
        simp only [List.insertionSort]
        cases h : List.insertionSort scoreGE xs with
        | nil => rfl
        | cons y ys =>
          have : scoreGE x y := hge y (h ▸ List.mem_cons_self y ys)
          simp [List.orderedInsert, this]
      rw [this, List.filter_cons, List.filter_cons]
      simp only [hx, beq_self_eq_true, if_true]
      rw [ih hxs]
    · have hfx : (fun p : Int × Asset => p.1 == top) x = false := by
        simpa using hx
      simp only [List.insertionSort]
      rw [filter_orderedInsert_of_ne hfx, ih hxs, List.filter_cons]
      simp [hx]

/-- C2: `find_best_assets` returns exactly the matching assets (score not
the no-match sentinel `-1`) whose score is maximal among the matching
assets, in original order, and the empty list when nothing matches;
`find_best_asset` is the first of these, or none. -/
theorem C2_find_best_assets_max_score (assets : List Asset) (pi : PlatformInfo) :
    (find_best_assets assets pi =
      (assets.filter fun a => decide (score_asset a pi ≠ -1)).filter
        (fun a => (assets.filter fun b => decide (score_asset b pi ≠ -1)).all
          fun b => decide (score_asset b pi ≤ score_asset a pi))) ∧
    find_best_asset assets pi = (find_best_assets assets pi).head? := by
  refine ⟨?_, rfl⟩
  have hmatch : (assets.filter fun a => decide (score_asset a pi ≠ -1)) =
      (assets.filter fun a => decide (0 ≤ score_asset a pi)) := by
    refine List.filter_congr fun a _ => ?_
    rcases score_asset_neg_one_or_nonneg a pi with h | h
    · simp [h]
    · simp [h]
      omega
  rw [hmatch]
  set M := assets.filter fun a => decide (0 ≤ score_asset a pi) with hM
  have hscored : (assets.map fun a => (score_asset a pi, a)).filter
      (fun p => decide (0 ≤ p.1)) = M.map fun a => (score_asset a pi, a) := by
    rw [List.filter_map]
    rfl
  unfold find_best_assets
  simp only [hscored]
  cases hsort : List.insertionSort scoreGE (M.map fun a => (score_asset a pi, a)) with
  | nil =>
    have : M.map (fun a => (score_asset a pi, a)) = [] := by
      have := List.perm_insertionSort scoreGE (M.map fun a => (score_asset a pi, a))
      rw [hsort] at this
      exact this.symm.eq_nil
    have hMnil : M = [] := List.map_eq_nil_iff.mp this
    simp [hMnil]
  | cons top rest =>
    -- the head of the descending sort realizes the maximum score
    have hperm := List.perm_insertionSort scoreGE (M.map fun a => (score_asset a pi, a))
    rw [hsort] at hperm
    have hsorted := List.sorted_insertionSort scoreGE
      (M.map fun a => (score_asset a pi, a))
    rw [hsort] at hsorted
    have hdom : ∀ q ∈ M.map (fun a => (score_asset a pi, a)), q.1 ≤ top.1 := by
      intro q hq
      have : q ∈ top :: rest := hperm.symm.subset hq
      rcases List.mem_cons.mp this with rfl | hq2
      · exact le_refl _
      · exact List.rel_of_sorted_cons hsorted q hq2
    have htopmem : top ∈ M.map (fun a => (score_asset a pi, a)) :=
      hperm.subset (List.mem_cons_self top rest)
    have hfe : (top :: rest).filter (fun p => p.1 == top.1) =
        (M.map fun a => (score_asset a pi, a)).filter (fun p => p.1 == top.1) := by
      rw [← hsort]
      exact filter_insertionSort_top top.1 _ hdom
    show ((top :: rest).filter fun p => p.1 == top.1).map Prod.snd = _
    rw [hfe, List.filter_map, List.map_map]
    have hmapid : (Prod.snd ∘ fun a : Asset => (score_asset a pi, a)) = id := rfl
    rw [hmapid, List.map_id]
    refine List.filter_congr fun a haM => ?_
    show (score_asset a pi == top.1) =
      M.all fun b => decide (score_asset b pi ≤ score_asset a pi)
    have haS : (score_asset a pi, a) ∈ M.map (fun b => (score_asset b pi, b)) :=
      List.mem_map.mpr ⟨a, haM, rfl⟩
    obtain ⟨b0, hb0M, hb0⟩ := List.mem_map.mp htopmem
    by_cases hmax : score_asset a pi = top.1
    · rw [show (score_asset a pi == top.1) = true from beq_iff_eq.mpr hmax]
      symm
      rw [List.all_eq_true]
      intro b hbM
      have : (score_asset b pi, b) ∈ M.map (fun c => (score_asset c pi, c)) :=
        List.mem_map.mpr ⟨b, hbM, rfl⟩
      have hb := hdom _ this
      exact decide_eq_true (by rw [hmax]; exact hb)
    · rw [show (score_asset a pi == top.1) = false by simpa using hmax]
      symm
      rw [Bool.eq_false_iff]
      intro hall
      rw [List.all_eq_true] at hall
      have h1 := hall b0 hb0M
      have h2 : top.1 = score_asset b0 pi := by rw [← hb0]
      have h3 : score_asset a pi ≤ top.1 := by simpa using hdom _ haS
      have h4 : score_asset b0 pi ≤ score_asset a pi := by simpa using h1
      exact hmax (le_antisymm h3 (h2 ▸ h4))

/-! ## Integrity verifier (`core/checksum.py`) -/

/-- The `checksum_patterns` list built inside `find_checksum_asset`
(note: the two target-derived patterns interpolate `target_asset.name`
verbatim, not lowercased — the unused `target_name` local of the source is
omitted). -/
def checksum_patterns (target_asset : Asset) : List String :=
  ["sha256sums", "sha256", "checksums", "checksums.txt",
   target_asset.name ++ ".sha256", target_asset.name ++ ".sha256sum"]

/-- `find_checksum_asset(assets, target_asset)`: first asset whose
lowercased name contains one of the patterns as a substring. -/
def find_checksum_asset (assets : List Asset) (target_asset : Asset) : Option Asset :=
  assets.find? fun asset =>
    (checksum_patterns target_asset).any fun pattern => strHas (lowerS asset.name) pattern

theorem hasSub_sha256_of_append {L y suf : List Char}
    (hs : hasSub "sha256".data suf = true) (h : hasSub (y ++ suf) L = true) :
    hasSub "sha256".data L = true :=
  hasSub_trans (hasSub_append_right _ _ _ hs) h

theorem lowerS_append_concrete (x suf : String)
    (hsuf : suf.data.map Char.toLower = suf.data) :
    (lowerS (x ++ suf)).data = (lowerS x).data ++ suf.data := by
  simp [lowerS, String.data_append, List.map_append, hsuf]

theorem checksum_pred_eq (t a : Asset) :
    ((checksum_patterns t).any fun pattern => strHas (lowerS a.name) pattern) =
    ((checksum_patterns t).any fun pattern => strHas (lowerS a.name) (lowerS pattern)) := by
  rw [Bool.eq_iff_iff]
  simp only [checksum_patterns, List.any_cons, List.any_nil, Bool.or_eq_true,
    Bool.or_false,
    show lowerS "sha256sums" = "sha256sums" from by decide,
    show lowerS "sha256" = "sha256" from by decide,
    show lowerS "checksums" = "checksums" from by decide,
    show lowerS "checksums.txt" = "checksums.txt" from by decide]
  have code1 : strHas (lowerS a.name) (t.name ++ ".sha256") = true →
      strHas (lowerS a.name) "sha256" = true := by
    intro h
    unfold strHas at *
    rw [String.data_append] at h
    exact hasSub_sha256_of_append (by decide) h
  have code2 : strHas (lowerS a.name) (t.name ++ ".sha256sum") = true →
      strHas (lowerS a.name) "sha256" = true := by
    intro h
    unfold strHas at *
    rw [String.data_append] at h
    exact hasSub_sha256_of_append (by decide) h
  have claim1 : strHas (lowerS a.name) (lowerS (t.name ++ ".sha256")) = true →
      strHas (lowerS a.name) "sha256" = true := by
    intro h
    unfold strHas at *
    rw [lowerS_append_concrete t.name ".sha256" (by decide)] at h
    exact hasSub_sha256_of_append (by decide) h
  have claim2 : strHas (lowerS a.name) (lowerS (t.name ++ ".sha256sum")) = true →
      strHas (lowerS a.name) "sha256" = true := by
    intro h
    unfold strHas at *
    rw [lowerS_append_concrete t.name ".sha256sum" (by decide)] at h
    exact hasSub_sha256_of_append (by decide) h
  constructor
  · rintro (h | h | h | h | h | h)
    · exact Or.inl h
    · exact Or.inr (Or.inl h)
    · exact Or.inr (Or.inr (Or.inl h))
    · exact Or.inr (Or.inr (Or.inr (Or.inl h)))
    · exact Or.inr (Or.inl (code1 h))
    · exact Or.inr (Or.inl (code2 h))
  · rintro (h | h | h | h | h | h)
    · exact Or.inl h
    · exact Or.inr (Or.inl h)
    · exact Or.inr (Or.inr (Or.inl h))
    · exact Or.inr (Or.inr (Or.inr (Or.inl h)))
    · exact Or.inr (Or.inl (claim1 h))
    · exact Or.inr (Or.inl (claim2 h))

/-- C8: `find_checksum_asset` returns the first asset, in original order,
whose name matches case-insensitively (as a substring) one of the fixed
patterns `"sha256sums"`, `"sha256"`, `"checksums"`, `"checksums.txt"`,
`"{target.name}.sha256"`, `"{target.name}.sha256sum"`, and none when no
asset matches.  (The source lowercases only the asset name, but a fully
case-insensitive match — both sides lowercased — selects the same asset,
because any hit on a target-derived pattern is already a hit on the
pattern `"sha256"`.) -/
theorem C8_find_checksum_asset_first_match (assets : List Asset) (target : Asset) :
    find_checksum_asset assets target =
      assets.find? fun asset =>
        (checksum_patterns target).any fun pattern =>
          strHas (lowerS asset.name) (lowerS pattern) := by
  unfold find_checksum_asset
  exact congrArg (fun p => List.find? p assets) (funext fun a => checksum_pred_eq target a)

/-- The whitespace class of Python's `str.strip` and of the regex `\s`
(ASCII range). -/
def isSpaceCh (c : Char) : Bool :=
  c = ' ' || c = '\t' || c = '\n' || c = '\r' || c = '\x0b' || c = '\x0c'

/-- The character class `[a-fA-F0-9]`. -/
def isHexCh (c : Char) : Bool :=
  ('a' ≤ c && c ≤ 'f') || ('A' ≤ c && c ≤ 'F') || ('0' ≤ c && c ≤ '9')

/-- Python `str.strip()` (ASCII whitespace). -/
def pyStrip (l : List Char) : List Char :=
  ((l.dropWhile isSpaceCh).reverse.dropWhile isSpaceCh).reverse

/-- Python `str.split(sep)` for a one-character separator. -/
def splitOnCh (c : Char) : List Char → List (List Char)
  | [] => [[]]
  | x :: xs =>
    if x = c then [] :: splitOnCh c xs
    else
      match splitOnCh c xs with
      | [] => [[x]]
      | h :: t => (x :: h) :: t

/-- `re.match(r"([a-fA-F0-9]{64})\s+\*?(.+)", line)`, returning the two
capture groups: 64 hex digits, at least one whitespace character, an
optional `*`, then the (non-empty) filename.  When everything after the
whitespace run is empty the engine backtracks `\s+` so that `(.+)`
captures the final whitespace character (unreachable for stripped lines,
modelled for fidelity). -/
def matchHashFirst (line : List Char) : Option (List Char × List Char) :=
  let h := line.take 64
  let rest := line.drop 64
  if h.length = 64 && h.all isHexCh then
    match rest with
    | [] => none
    | c :: _ =>
      if isSpaceCh c then
        match rest.dropWhile isSpaceCh with
        | [] => some (h, (rest.reverse.take 1).reverse)
        | d :: ds => if d = '*' ∧ ds ≠ [] then some (h, ds) else some (h, d :: ds)
      else none
  else none

/-- `re.match(r"(.+?):\s*([a-fA-F0-9]{64})", line)`: the non-greedy first
group grows until a `:` is found after which, past optional whitespace, 64
hex digits follow (trailing characters unconstrained: the pattern is not
anchored at the end). -/
def matchNameFirst (pre rest : List Char) : Option (List Char × List Char) :=
  match rest with
  | [] => none
  | c :: cs =>
    if c = ':' ∧ pre ≠ [] then
      let h := (cs.dropWhile isSpaceCh).take 64
      if h.length = 64 ∧ h.all isHexCh then some (pre, h)
      else matchNameFirst (pre ++ [c]) cs
    else matchNameFirst (pre ++ [c]) cs

/-- The `filename: hash` branch of the per-line loop. -/
def parseLineColon (line tl : List Char) : Option (List Char) :=
  match matchNameFirst [] line with
  | some (fn, h) =>
    if fn.map Char.toLower = tl then some (h.map Char.toLower) else none
  | none => none

/-- One iteration of the line loop of `parse_checksum_file`: try the
`hash  filename` / `hash *filename` format, then `filename: hash`; a
format-A match whose filename differs from the target still falls through
to format B (both `re.match` calls run on the same line). -/
def parseLineOne (line tl : List Char) : Option (List Char) :=
  match matchHashFirst line with
  | some (h, fn) =>
    if fn.map Char.toLower = tl then some (h.map Char.toLower)
    else parseLineColon line tl
  | none => parseLineColon line tl

def parseLinesGo (lines : List (List Char)) (tl : List Char) : Option (List Char) :=
  match lines with
  | [] => none
  | line :: rest =>
    let l := pyStrip line
    if l = [] then parseLinesGo rest tl
    else
      match parseLineOne l tl with
      | some h => some h
      | none => parseLinesGo rest tl

/-- `parse_checksum_file(content, target_filename)` from `core/checksum.py`. -/
def parse_checksum_file (content : String) (target_filename : String) : Option String :=
  (parseLinesGo (splitOnCh '\n' (pyStrip content.data))
    (target_filename.data.map Char.toLower)).map fun h => ⟨h⟩

/-- `verify_checksum(file_path, assets, target_asset)` from
`core/checksum.py`.  The local file is represented by its SHA-256 digest
`actual_hash` (the value of `calculate_sha256(file_path)`); the network is
the oracle `download_text` (`None` = fetch failed).  `Except.error`
models raising `ChecksumError`. -/
def verify_checksum (assets : List Asset) (target_asset : Asset)
    (download_text : String → Option String) (actual_hash : String) :
    Except String Bool :=
  match find_checksum_asset assets target_asset with
  | none => .ok true
  | some checksum_asset =>
    match download_text checksum_asset.download_url with
    | none => .ok true
    | some checksum_content =>
      match parse_checksum_file checksum_content target_asset.name with
      | none => .ok true
      | some expected_hash =>
        if actual_hash ≠ expected_hash then
          .error ("Checksum mismatch for " ++ target_asset.name ++
            ": expected " ++ expected_hash ++ ", got " ++ actual_hash)
        else .ok true

/-- C4: `verify_checksum` succeeds (returns normally) whenever no checksum
asset is found, or its content cannot be fetched, or no parsed line
matches the target filename; it raises `ChecksumError` exactly when a
checksum asset is found, fetched, parsed to a hash for the target
filename, and that hash differs from the SHA-256 digest of the local
file. -/
theorem C4_verify_checksum_error_iff (assets : List Asset) (target : Asset)
    (download_text : String → Option String) (actual_hash : String) :
    ((verify_checksum assets target download_text actual_hash = .ok true) ↔
      ¬ ∃ ca content expected, find_checksum_asset assets target = some ca ∧
        download_text ca.download_url = some content ∧
        parse_checksum_file content target.name = some expected ∧
        expected ≠ actual_hash) ∧
    ((∃ e, verify_checksum assets target download_text actual_hash = .error e) ↔
      ∃ ca content expected, find_checksum_asset assets target = some ca ∧
        download_text ca.download_url = some content ∧
        parse_checksum_file content target.name = some expected ∧
        expected ≠ actual_hash) := by
  unfold verify_checksum
  cases hf : find_checksum_asset assets target with
  | none => simp [hf]
  | some ca =>
    cases hd : download_text ca.download_url with
    | none => simp [hf, hd]
    | some content =>
      cases hp : parse_checksum_file content target.name with
      | none => simp [hf, hd, hp]
      | some expected =>
        by_cases hne : actual_hash = expected
        · subst hne
          simp [hf, hd, hp]
        · simp [hf, hd, hp, hne]
          intro h
          exact absurd h.symm hne

/-! ## Release source (`core/github.py`): `parse_repo_spec`

The source matches `r"(?:https?://)?github\.com/([^/]+)/([^/]+?)(?:\.git)?/?$"`
with `re.match` and otherwise falls back to `spec.split("/")` with exactly
two parts.  The regex is embedded operationally: the non-greedy group
`([^/]+?)` is a shortest-prefix scan (`repoScan`). -/

/-- `[^/]*`-ness of a character list. -/
def noSlash (l : List Char) : Bool := l.all (· != '/')

/-- The admissible remainders after the repo group: `(?:\.git)?/?$`. -/
def gitSuffixOk (rest : List Char) : Bool :=
  decide (rest = []) || decide (rest = ".git".data) ||
    decide (rest = "/".data) || decide (rest = ".git/".data)

/-- Validity of a split `repo ++ rest` for `([^/]+?)(?:\.git)?/?$`. -/
def repoGroupValid (pre rest : List Char) : Bool :=
  decide (pre ≠ []) && noSlash pre && gitSuffixOk rest

/-- The regex engine's treatment of the non-greedy group `([^/]+?)`: try
candidate captures of increasing length, returning the first for which the
remainder of the pattern matches the remainder of the input. -/
def repoScan (pre rest : List Char) : Option (List Char) :=
  if repoGroupValid pre rest then some pre
  else
    match rest with
    | [] => none
    | c :: cs => repoScan (pre ++ [c]) cs

/-- Drop the last `n` elements. -/
def dropEnd (n : Nat) (l : List Char) : List Char := l.take (l.length - n)

/-- The same capture, described as the specification words it: strip the
longest trailing marker among `".git/"`, `".git"`, `"/"` that leaves a
non-empty slash-free repo name; failing those, the whole (non-empty,
slash-free) remainder is the repo name. -/
def repoStrip (r : List Char) : Option (List Char) :=
  if endsL ".git/".data r && decide (dropEnd 5 r ≠ []) && noSlash (dropEnd 5 r) then
    some (dropEnd 5 r)
  else if endsL ".git".data r && decide (dropEnd 4 r ≠ []) && noSlash (dropEnd 4 r) then
    some (dropEnd 4 r)
  else if endsL "/".data r && decide (dropEnd 1 r ≠ []) && noSlash (dropEnd 1 r) then
    some (dropEnd 1 r)
  else if decide (r ≠ []) && noSlash r then some r
  else none

theorem endsL_iff (p s : List Char) : endsL p s = true ↔ ∃ l, s = l ++ p := by
  unfold endsL
  rw [startsL_iff]
  constructor
  · rintro ⟨r, hr⟩
    refine ⟨r.reverse, ?_⟩
    have := congrArg List.reverse hr
    simpa using this
  · rintro ⟨l, rfl⟩
    exact ⟨l.reverse, by simp⟩

theorem dropEnd_append (l p : List Char) : dropEnd p.length (l ++ p) = l := by
  unfold dropEnd
  rw [List.length_append, Nat.add_sub_cancel]
  exact List.take_left l p

theorem repoGroupValid_iff (pre rest : List Char) :
    repoGroupValid pre rest = true ↔
      pre ≠ [] ∧ noSlash pre = true ∧ gitSuffixOk rest = true := by
  simp [repoGroupValid, and_assoc]

theorem gitSuffixOk_iff (rest : List Char) :
    gitSuffixOk rest = true ↔
      rest = [] ∨ rest = ".git".data ∨ rest = "/".data ∨ rest = ".git/".data := by
  simp [gitSuffixOk, or_assoc]

theorem repoScan_sound (rest : List Char) : ∀ pre q, repoScan pre rest = some q →
    ∃ a t, rest = a ++ t ∧ q = pre ++ a ∧ repoGroupValid q t = true := by
  induction rest with
  | nil =>
    intro pre q h
    unfold repoScan at h
    by_cases hv : repoGroupValid pre [] = true
    · rw [if_pos hv] at h
      cases h
      exact ⟨[], [], by simp, by simp, hv⟩
    · rw [if_neg hv] at h
      cases h
  | cons c cs ih =>
    intro pre q h
    unfold repoScan at h
    by_cases hv : repoGroupValid pre (c :: cs) = true
    · rw [if_pos hv] at h
      cases h
      exact ⟨[], c :: cs, by simp, by simp, hv⟩
    · rw [if_neg hv] at h
      obtain ⟨a, t, h1, h2, h3⟩ := ih (pre ++ [c]) q h
      exact ⟨c :: a, t, by simp [h1], by simp [h2], h3⟩

theorem repoScan_complete (a : List Char) : ∀ rest pre t, rest = a ++ t →
    repoGroupValid (pre ++ a) t = true → (repoScan pre rest).isSome = true := by
  induction a with
  | nil =>
    intro rest pre t h1 h2
    subst h1
    simp only [List.append_nil] at h2
    unfold repoScan
    rw [if_pos h2]
    rfl
  | cons c a' ih =>
    intro rest pre t h1 h2
    subst h1
    unfold repoScan
    by_cases hv : repoGroupValid pre (c :: a' ++ t) = true
    · rw [if_pos hv]; rfl
    · rw [if_neg hv]
      exact ih (a' ++ t) (pre ++ [c]) t rfl (by simpa using h2)

theorem repoScan_minimal (rest : List Char) : ∀ pre q, repoScan pre rest = some q →
    ∀ a t, rest = a ++ t → repoGroupValid (pre ++ a) t = true →
      q.length ≤ pre.length + a.length := by
  induction rest with
  | nil =>
    intro pre q h a t h1 h2
    unfold repoScan at h
    by_cases hv : repoGroupValid pre [] = true
    · rw [if_pos hv] at h
      cases h
      omega
    · rw [if_neg hv] at h
      cases h
  | cons c cs ih =>
    intro pre q h a t h1 h2
    unfold repoScan at h
    by_cases hv : repoGroupValid pre (c :: cs) = true
    · rw [if_pos hv] at h
      cases h
      omega
    · rw [if_neg hv] at h
      cases a with
      | nil =>
        simp only [List.nil_append] at h1
        subst h1
        simp only [List.append_nil] at h2
        exact absurd h2 hv
      | cons c' a' =>
        have hc : c = c' ∧ cs = a' ++ t := by
          have h1' := h1
          simp only [List.cons_append, List.cons.injEq] at h1'
          exact h1'
        obtain ⟨rfl, rfl⟩ := hc
        have := ih (pre ++ [c]) q h a' t rfl (by simpa using h2)
        simp only [List.length_append, List.length_cons, List.length_nil] at this ⊢
        omega

theorem repoScan_determined (r q t : List Char)
    (hdec : r = q ++ t) (hval : repoGroupValid q t = true)
    (hmin : ∀ q' t', r = q' ++ t' → repoGroupValid q' t' = true →
      q.length ≤ q'.length) :
    repoScan [] r = some q := by
  have hsome : (repoScan [] r).isSome = true :=
    repoScan_complete q r [] t hdec (by simpa using hval)
  obtain ⟨q0, hq0⟩ := Option.isSome_iff_exists.mp hsome
  obtain ⟨a, t', h1, h2, h3⟩ := repoScan_sound r [] q0 hq0
  simp only [List.nil_append] at h2
  subst h2
  have hle : q0.length ≤ q.length := by
    have := repoScan_minimal r [] q0 hq0 q t hdec (by simpa using hval)
    simpa using this
  have hge : q.length ≤ q0.length := hmin q0 t' h1 h3
  have hlen : q.length = q0.length := le_antisymm hge hle
  have : q = q0 := (List.append_inj (hdec ▸ h1 : q ++ t = q0 ++ t').symm hlen.symm).1.symm
  rw [hq0, this]

theorem suffix_length_le (t : List Char) (h : gitSuffixOk t = true) : t.length ≤ 5 := by
  rcases gitSuffixOk_iff t |>.mp h with rfl | rfl | rfl | rfl <;> decide

theorem repoScan_eq_repoStrip (r : List Char) : repoScan [] r = repoStrip r := by
  unfold repoStrip
  by_cases h5 : (endsL ".git/".data r && decide (dropEnd 5 r ≠ []) &&
      noSlash (dropEnd 5 r)) = true
  · rw [if_pos h5]
    simp only [Bool.and_eq_true, decide_eq_true_eq] at h5
    obtain ⟨⟨hend, hne⟩, hns⟩ := h5
    obtain ⟨l, rfl⟩ := (endsL_iff _ _).mp hend
    have hl : dropEnd 5 (l ++ ".git/".data) = l := dropEnd_append l ".git/".data
    rw [hl] at hne hns ⊢
    refine repoScan_determined _ l ".git/".data rfl ?_ ?_
    · rw [repoGroupValid_iff]
      exact ⟨hne, hns, by rw [gitSuffixOk_iff]; tauto⟩
    · intro q' t' hdec hval
      have h1 := suffix_length_le t' ((repoGroupValid_iff _ _).mp hval).2.2
      have h2 : l.length + 5 = q'.length + t'.length := by
        have := congrArg List.length hdec
        simpa using this
      omega
  · rw [if_neg h5]
    by_cases h4 : (endsL ".git".data r && decide (dropEnd 4 r ≠ []) &&
        noSlash (dropEnd 4 r)) = true
    · rw [if_pos h4]
      simp only [Bool.and_eq_true, decide_eq_true_eq] at h4
      obtain ⟨⟨hend, hne⟩, hns⟩ := h4
      obtain ⟨l, rfl⟩ := (endsL_iff _ _).mp hend
      have hl : dropEnd 4 (l ++ ".git".data) = l := dropEnd_append l ".git".data
      rw [hl] at hne hns ⊢
      refine repoScan_determined _ l ".git".data rfl ?_ ?_
      · rw [repoGroupValid_iff]
        exact ⟨hne, hns, by rw [gitSuffixOk_iff]; tauto⟩
      · intro q' t' hdec hval
        rw [repoGroupValid_iff] at hval
        obtain ⟨hq'ne, hq'ns, hq't⟩ := hval
        have h2 : l.length + 4 = q'.length + t'.length := by
          have := congrArg List.length hdec
          simpa using this
        rcases (gitSuffixOk_iff t').mp hq't with rfl | rfl | rfl | rfl
        · simp at h2 ⊢; omega
        · simp at h2 ⊢; omega
        · simp at h2 ⊢; omega
        · -- t' = ".git/" would satisfy the first branch, excluded by h5
          exfalso
          apply h5
          have hr : l ++ ".git".data = q' ++ ".git/".data := hdec
          have hend5 : endsL ".git/".data (l ++ ".git".data) = true := by
            rw [endsL_iff]; exact ⟨q', hr⟩
          have hde : dropEnd 5 (l ++ ".git".data) = q' := by
            rw [hr]; exact dropEnd_append q' ".git/".data
          simp only [Bool.and_eq_true, decide_eq_true_eq]
          exact ⟨⟨hend5, by rw [hde]; exact hq'ne⟩, by rw [hde]; exact hq'ns⟩
    · rw [if_neg h4]
      by_cases h1 : (endsL "/".data r && decide (dropEnd 1 r ≠ []) &&
          noSlash (dropEnd 1 r)) = true
      · rw [if_pos h1]
        simp only [Bool.and_eq_true, decide_eq_true_eq] at h1
        obtain ⟨⟨hend, hne⟩, hns⟩ := h1
        obtain ⟨l, rfl⟩ := (endsL_iff _ _).mp hend
        have hl : dropEnd 1 (l ++ "/".data) = l := dropEnd_append l "/".data
        rw [hl] at hne hns ⊢
        refine repoScan_determined _ l "/".data rfl ?_ ?_
        · rw [repoGroupValid_iff]
          exact ⟨hne, hns, by rw [gitSuffixOk_iff]; tauto⟩
        · intro q' t' hdec hval
          rw [repoGroupValid_iff] at hval
          obtain ⟨hq'ne, hq'ns, hq't⟩ := hval
          have h2 : l.length + 1 = q'.length + t'.length := by
            have := congrArg List.length hdec
            simpa using this
          rcases (gitSuffixOk_iff t').mp hq't with rfl | rfl | rfl | rfl
          · simp at h2 ⊢; omega
          · -- t' = ".git" would satisfy the second branch, excluded by h4
            exfalso
            apply h4
            have hr : l ++ "/".data = q' ++ ".git".data := hdec
            have hend4 : endsL ".git".data (l ++ "/".data) = true := by
              rw [endsL_iff]; exact ⟨q', hr⟩
            have hde : dropEnd 4 (l ++ "/".data) = q' := by
              rw [hr]; exact dropEnd_append q' ".git".data
            simp only [Bool.and_eq_true, decide_eq_true_eq]
            exact ⟨⟨hend4, by rw [hde]; exact hq'ne⟩, by rw [hde]; exact hq'ns⟩
          · simp at h2 ⊢; omega
          · -- t' = ".git/" excluded by h5
            exfalso
            apply h5
            have hr : l ++ "/".data = q' ++ ".git/".data := hdec
            have hend5 : endsL ".git/".data (l ++ "/".data) = true := by
              rw [endsL_iff]; exact ⟨q', hr⟩
            have hde : dropEnd 5 (l ++ "/".data) = q' := by
              rw [hr]; exact dropEnd_append q' ".git/".data
            simp only [Bool.and_eq_true, decide_eq_true_eq]
            exact ⟨⟨hend5, by rw [hde]; exact hq'ne⟩, by rw [hde]; exact hq'ns⟩
      · rw [if_neg h1]
        by_cases h0 : (decide (r ≠ []) && noSlash r) = true
        · rw [if_pos h0]
          simp only [Bool.and_eq_true, decide_eq_true_eq] at h0
          obtain ⟨hne, hns⟩ := h0
          refine repoScan_determined r r [] (by simp) ?_ ?_
          · rw [repoGroupValid_iff]
            exact ⟨hne, hns, by rw [gitSuffixOk_iff]; tauto⟩
          · intro q' t' hdec hval
            rw [repoGroupValid_iff] at hval
            obtain ⟨hq'ne, hq'ns, hq't⟩ := hval
            have h2 : r.length = q'.length + t'.length := by
              have := congrArg List.length hdec
              simpa using this
            rcases (gitSuffixOk_iff t').mp hq't with rfl | rfl | rfl | rfl
            · simp at h2 ⊢; omega
            · -- t' = ".git" excluded by h4
              exfalso
              apply h4
              have hend4 : endsL ".git".data r = true := by
                rw [endsL_iff]; exact ⟨q', hdec⟩
              have hde : dropEnd 4 r = q' := by
                rw [hdec]; exact dropEnd_append q' ".git".data
              simp only [Bool.and_eq_true, decide_eq_true_eq]
              exact ⟨⟨hend4, by rw [hde]; exact hq'ne⟩, by rw [hde]; exact hq'ns⟩
            · -- t' = "/" excluded by h1
              exfalso
              apply h1
              have hend1 : endsL "/".data r = true := by
                rw [endsL_iff]; exact ⟨q', hdec⟩
              have hde : dropEnd 1 r = q' := by
                rw [hdec]; exact dropEnd_append q' "/".data
              simp only [Bool.and_eq_true, decide_eq_true_eq]
              exact ⟨⟨hend1, by rw [hde]; exact hq'ne⟩, by rw [hde]; exact hq'ns⟩
            · -- t' = ".git/" excluded by h5
              exfalso
              apply h5
              have hend5 : endsL ".git/".data r = true := by
                rw [endsL_iff]; exact ⟨q', hdec⟩
              have hde : dropEnd 5 r = q' := by
                rw [hdec]; exact dropEnd_append q' ".git/".data
              simp only [Bool.and_eq_true, decide_eq_true_eq]
              exact ⟨⟨hend5, by rw [hde]; exact hq'ne⟩, by rw [hde]; exact hq'ns⟩
        · rw [if_neg h0]
          -- no valid decomposition exists, so the scan fails
          cases hscan : repoScan [] r with
          | none => rfl
          | some q =>
            exfalso
            obtain ⟨a, t, hdec, hq, hval⟩ := repoScan_sound r [] q hscan
            simp only [List.nil_append] at hq
            subst hq
            rw [repoGroupValid_iff] at hval
            obtain ⟨hqne, hqns, hqt⟩ := hval
            rcases (gitSuffixOk_iff t).mp hqt with rfl | rfl | rfl | rfl
            · apply h0
              simp only [List.append_nil] at hdec
              subst hdec
              simp only [Bool.and_eq_true, decide_eq_true_eq]
              exact ⟨hqne, hqns⟩
            · apply h4
              have hend4 : endsL ".git".data r = true := by
                rw [endsL_iff]; exact ⟨q, hdec⟩
              have hde : dropEnd 4 r = q := by
                rw [hdec]; exact dropEnd_append q ".git".data
              simp only [Bool.and_eq_true, decide_eq_true_eq]
              exact ⟨⟨hend4, by rw [hde]; exact hqne⟩, by rw [hde]; exact hqns⟩
            · apply h1
              have hend1 : endsL "/".data r = true := by
                rw [endsL_iff]; exact ⟨q, hdec⟩
              have hde : dropEnd 1 r = q := by
                rw [hdec]; exact dropEnd_append q "/".data
              simp only [Bool.and_eq_true, decide_eq_true_eq]
              exact ⟨⟨hend1, by rw [hde]; exact hqne⟩, by rw [hde]; exact hqns⟩
            · apply h5
              have hend5 : endsL ".git/".data r = true := by
                rw [endsL_iff]; exact ⟨q, hdec⟩
              have hde : dropEnd 5 r = q := by
                rw [hdec]; exact dropEnd_append q ".git/".data
              simp only [Bool.and_eq_true, decide_eq_true_eq]
              exact ⟨⟨hend5, by rw [hde]; exact hqne⟩, by rw [hde]; exact hqns⟩

/-- The host-and-path part of the URL regex:
`github\.com/([^/]+)/([^/]+?)(?:\.git)?/?$`, applied after the optional
scheme has been consumed.  The owner group `([^/]+)` is greedy, hence the
maximal slash-free run (`takeWhile`); the mandatory `/` after it is
checked explicitly. -/
def matchHostPath (rest : List Char) : Option (String × String) :=
  if startsL "github.com/".data rest then
    let rest2 := rest.drop 11
    let owner := rest2.takeWhile (· != '/')
    if owner.isEmpty then none
    else
      match rest2.drop owner.length with
      | [] => none
      | c :: after =>
        if c = '/' then (repoScan [] after).map fun repo => (⟨owner⟩, ⟨repo⟩)
        else none
  else none

/-- The full URL pattern `(?:https?://)?github\.com/...` of
`parse_repo_spec`.  The alternation `https?` and the optional group are
deterministic here: an input starting with a scheme cannot also match with
the scheme group skipped (the host would have to start at the same
position), so each input is tried with its own scheme prefix stripped. -/
def matchGithubUrl (spec : String) : Option (String × String) :=
  if startsL "https://".data spec.data then matchHostPath (spec.data.drop 8)
  else if startsL "http://".data spec.data then matchHostPath (spec.data.drop 7)
  else matchHostPath spec.data

/-- The `owner/repo` fallback of `parse_repo_spec`:
`spec.split("/")` must have exactly two parts. -/
def splitPair (l : List Char) : Option (String × String) :=
  match splitOnCh '/' l with
  | [a, b] => some (⟨a⟩, ⟨b⟩)
  | _ => none

/-- `parse_repo_spec(spec)` from `core/github.py`.  `none` models raising
`ValueError` (`InvalidSpec`). -/
def parse_repo_spec (spec : String) : Option (String × String) :=
  match matchGithubUrl spec with
  | some pair => some pair
  | none => splitPair spec.data

/-! Characterizations of the two accepted grammars. -/

/-- The fallback grammar: a string with exactly one `/`, split there. -/
def oneSlashSplit (s o r : List Char) : Prop :=
  s = o ++ '/' :: r ∧ noSlash o = true ∧ noSlash r = true

/-- The URL grammar the code accepts: scheme `https://`, `http://` or
none; host exactly `github.com`; non-empty slash-free owner; repo given by
`repoStrip` (trailing `.git` and `/` markers stripped). -/
def codeUrlSplit (s o r : List Char) : Prop :=
  ∃ scheme rr,
    (scheme = "https://".data ∨ scheme = "http://".data ∨ scheme = []) ∧
    o ≠ [] ∧ noSlash o = true ∧ repoStrip rr = some r ∧
    s = scheme ++ "github.com/".data ++ o ++ '/' :: rr

/-- The URL grammar as the original claim words it: scheme `https://` or
none, *any* non-empty slash-free host, owner and repo slash-free and
non-empty, optional trailing `.git` and `/`. -/
def claimUrlSplit (s o r : List Char) : Prop :=
  ∃ scheme host t,
    (scheme = "https://".data ∨ scheme = []) ∧
    host ≠ [] ∧ noSlash host = true ∧
    o ≠ [] ∧ noSlash o = true ∧ r ≠ [] ∧ noSlash r = true ∧
    (t = [] ∨ t = ".git".data ∨ t = "/".data ∨ t = ".git/".data) ∧
    s = scheme ++ host ++ '/' :: o ++ '/' :: r ++ t

theorem takeWhile_middle (p : Char → Bool) (a : List Char) (ha : ∀ x ∈ a, p x = true)
    (c : Char) (hc : p c = false) (d : List Char) :
    (a ++ c :: d).takeWhile p = a := by
  induction a with
  | nil => simp [List.takeWhile_cons, hc]
  | cons x a' ih =>
    have hx : p x = true := ha x (List.mem_cons_self x a')
    simp only [List.cons_append, List.takeWhile_cons, hx, if_true]
    rw [ih fun y hy => ha y (List.mem_cons_of_mem _ hy)]

theorem splitOnCh_ne_nil (c : Char) (l : List Char) : splitOnCh c l ≠ [] := by
  cases l with
  | nil => simp [splitOnCh]
  | cons x xs =>
    unfold splitOnCh
    by_cases h : x = c
    · simp [h]
    · rw [if_neg h]
      cases hs : splitOnCh c xs <;> simp

theorem splitOnCh_single (c : Char) (l : List Char) : ∀ a,
    splitOnCh c l = [a] ↔ l = a ∧ a.all (· != c) = true := by
  induction l with
  | nil =>
    intro a
    unfold splitOnCh
    constructor
    · intro h
      cases h
      exact ⟨rfl, rfl⟩
    · rintro ⟨rfl, _⟩
      rfl
  | cons x xs ih =>
    intro a
    unfold splitOnCh
    by_cases hx : x = c
    · subst hx
      rw [if_pos rfl]
      constructor
      · intro h
        have : splitOnCh x xs = [] := by
          have := (List.cons.injEq .. ▸ h : ([] : List Char) = a ∧ splitOnCh x xs = [])
          exact this.2
        exact absurd this (splitOnCh_ne_nil x xs)
      · rintro ⟨rfl, hall⟩
        have := List.all_eq_true.mp hall x (List.mem_cons_self _ _)
        simp at this
    · rw [if_neg hx]
      cases hs : splitOnCh c xs with
      | nil => exact absurd hs (splitOnCh_ne_nil c xs)
      | cons hh tt =>
        constructor
        · intro h
          have h2 : x :: hh = a ∧ tt = [] := by
            have := (List.cons.injEq .. ▸ h : x :: hh = a ∧ tt = [])
            exact this
          obtain ⟨rfl, rfl⟩ := h2
          have := (ih hh).mp hs
          refine ⟨by rw [this.1], ?_⟩
          simp only [List.all_cons, Bool.and_eq_true]
          exact ⟨by simp [hx], this.2⟩
        · rintro ⟨rfl, hall⟩
          simp only [List.all_cons, Bool.and_eq_true] at hall
          have := (ih xs).mpr ⟨rfl, hall.2⟩
          rw [this] at hs
          have h2 : hh = xs ∧ tt = ([] : List (List Char)) := by
            have := (List.cons.injEq .. ▸ hs : xs = hh ∧ ([] : List (List Char)) = tt)
            exact ⟨this.1.symm, this.2.symm⟩
          rw [h2.1, h2.2]


theorem splitOnCh_pair (c : Char) (l : List Char) : ∀ a b,
    splitOnCh c l = [a, b] ↔
      l = a ++ c :: b ∧ a.all (· != c) = true ∧ b.all (· != c) = true := by
  induction l with
  | nil =>
    intro a b
    unfold splitOnCh
    constructor
    · intro h
      cases h
    · rintro ⟨h, -, -⟩
      have := congrArg List.length h
      simp only [List.length_nil, List.length_append, List.length_cons] at this
      omega
  | cons x xs ih =>
    intro a b
    unfold splitOnCh
    by_cases hx : x = c
    · subst hx
      rw [if_pos rfl]
      constructor
      · intro h
        simp only [List.cons.injEq] at h
        obtain ⟨h1, hs⟩ := h
        subst h1
        obtain ⟨h2, hall⟩ := (splitOnCh_single x xs b).mp hs
        subst h2
        exact ⟨rfl, rfl, hall⟩
      · rintro ⟨heq, ha, hb⟩
        cases a with
        | nil =>
          simp only [List.nil_append, List.cons.injEq, true_and] at heq
          subst heq
          rw [(splitOnCh_single x xs xs).mpr ⟨rfl, hb⟩]
        | cons y a' =>
          simp only [List.cons_append, List.cons.injEq] at heq
          have := List.all_eq_true.mp ha y (List.mem_cons_self _ _)
          rw [heq.1] at this
          simp at this
    · rw [if_neg hx]
      cases hs : splitOnCh c xs with
      | nil => exact absurd hs (splitOnCh_ne_nil c xs)
      | cons hh tt =>
        constructor
        · intro h
          simp only [List.cons.injEq] at h
          obtain ⟨h1, h2⟩ := h
          subst h1
          subst h2
          obtain ⟨hdec, hh1, hb1⟩ := (ih hh b).mp hs
          refine ⟨by rw [hdec]; rfl, ?_, hb1⟩
          simp only [List.all_cons, Bool.and_eq_true]
          exact ⟨by simp [hx], hh1⟩
        · rintro ⟨heq, ha, hb⟩
          cases a with
          | nil =>
            simp only [List.nil_append, List.cons.injEq] at heq
            exact absurd heq.1 hx
          | cons y a' =>
            simp only [List.cons_append, List.cons.injEq] at heq
            obtain ⟨hy, heq2⟩ := heq
            subst hy
            simp only [List.all_cons, Bool.and_eq_true] at ha
            have hihs := (ih a' b).mpr ⟨heq2, ha.2, hb⟩
            rw [hihs] at hs
            simp only [List.cons.injEq] at hs
            obtain ⟨h3, h4⟩ := hs
            rw [h3, ← h4]

theorem startsL_of_append (p X : List Char) : startsL p (p ++ X) = true :=
  (startsL_iff p (p ++ X)).mpr ⟨X, rfl⟩

theorem startsL_both {p1 p2 sd : List Char} (h1 : startsL p1 sd = true)
    (h2 : startsL p2 sd = true) (hle : p1.length ≤ p2.length) :
    startsL p1 p2 = true := by
  obtain ⟨x1, hx1⟩ := (startsL_iff p1 sd).mp h1
  obtain ⟨x2, hx2⟩ := (startsL_iff p2 sd).mp h2
  rw [startsL_iff]
  refine ⟨p2.drop p1.length, ?_⟩
  have ht : (p1 ++ x1).take p1.length = (p2 ++ x2).take p1.length := by
    rw [← hx1, ← hx2]
  rw [List.take_left, List.take_append_of_le_length hle] at ht
  conv_lhs => rw [← List.take_append_drop p1.length p2]
  rw [← ht]

theorem matchHostPath_some_iff (rest o r : List Char) :
    matchHostPath rest = some (⟨o⟩, ⟨r⟩) ↔
      o ≠ [] ∧ noSlash o = true ∧ ∃ rr, repoStrip rr = some r ∧
        rest = "github.com/".data ++ o ++ '/' :: rr := by
  constructor
  · intro h
    unfold matchHostPath at h
    by_cases hgh : startsL "github.com/".data rest = true
    case neg => rw [if_neg hgh] at h; cases h
    rw [if_pos hgh] at h
    simp only at h
    obtain ⟨q, hq⟩ := (startsL_iff _ _).mp hgh
    have hdrop : rest.drop 11 = q := by
      rw [hq, ← (show ("github.com/".data).length = 11 by decide)]
      exact List.drop_left _ _
    rw [hdrop] at h
    by_cases hemp : (q.takeWhile (· != '/')).isEmpty = true
    · rw [if_pos hemp] at h; cases h
    rw [if_neg hemp] at h
    have hq2 := List.takeWhile_append_dropWhile (· != '/') q
    have hdrop2 : q.drop (q.takeWhile (· != '/')).length = q.dropWhile (· != '/') := by
      nth_rewrite 2 [← hq2]
      exact List.drop_left _ _
    rw [hdrop2] at h
    cases hs : q.dropWhile (· != '/') with
    | nil => rw [hs] at h; cases h
    | cons c after =>
      rw [hs] at h
      simp only [] at h
      by_cases hc : c = '/'
      case neg => rw [if_neg hc] at h; cases h
      rw [if_pos hc] at h
      subst hc
      rw [Option.map_eq_some'] at h
      obtain ⟨repo, hscan, hpair⟩ := h
      have h1 : q.takeWhile (· != '/') = o := congrArg (String.data ∘ Prod.fst) hpair
      have h2 : repo = r := congrArg (String.data ∘ Prod.snd) hpair
      refine ⟨?_, ?_, after, ?_, ?_⟩
      · intro hnil
        exact hemp (by rw [h1, hnil]; rfl)
      · rw [← h1]
        exact List.all_eq_true.mpr fun x hx =>
          @List.mem_takeWhile_imp Char (· != '/') q x hx
      · rw [← h2, ← repoScan_eq_repoStrip]
        exact hscan
      · rw [hq]
        conv_lhs => rw [← hq2, hs]
        rw [h1, ← List.append_assoc]
  · rintro ⟨hone, hons, rr, hstrip, rfl⟩
    unfold matchHostPath
    have hgh : startsL "github.com/".data
        ("github.com/".data ++ o ++ '/' :: rr) = true := by
      rw [startsL_iff]
      exact ⟨o ++ '/' :: rr, by rw [List.append_assoc]⟩
    rw [if_pos hgh]
    simp only
    have hdrop : ("github.com/".data ++ o ++ '/' :: rr).drop 11 = o ++ '/' :: rr := by
      rw [List.append_assoc, ← (show ("github.com/".data).length = 11 by decide)]
      exact List.drop_left _ _
    rw [hdrop]
    have htw : (o ++ '/' :: rr).takeWhile (· != '/') = o :=
      takeWhile_middle (· != '/') o (fun x hx => List.all_eq_true.mp hons x hx) '/'
        (by decide) rr
    rw [htw]
    rw [if_neg (by simp [List.isEmpty_eq_false.mpr hone])]
    have hdrop2 : (o ++ '/' :: rr).drop o.length = '/' :: rr := List.drop_left o _
    rw [hdrop2]
    simp only [if_pos rfl]
    rw [repoScan_eq_repoStrip, hstrip]
    rfl

theorem matchGithubUrl_some_iff (spec : String) (o r : List Char) :
    matchGithubUrl spec = some (⟨o⟩, ⟨r⟩) ↔ codeUrlSplit spec.data o r := by
  unfold matchGithubUrl
  by_cases hA : startsL "https://".data spec.data = true
  · rw [if_pos hA]
    obtain ⟨q, hq⟩ := (startsL_iff _ _).mp hA
    have hdrop : spec.data.drop 8 = q := by
      rw [hq, ← (show ("https://".data).length = 8 by decide)]
      exact List.drop_left _ _
    rw [hdrop, matchHostPath_some_iff]
    constructor
    · rintro ⟨hone, hons, rr, hstrip, hq2⟩
      exact ⟨"https://".data, rr, Or.inl rfl, hone, hons, hstrip, by
        rw [hq, hq2]; simp [List.append_assoc]⟩
    · rintro ⟨scheme, rr, hsch, hone, hons, hstrip, hs⟩
      rcases hsch with rfl | rfl | rfl
      · refine ⟨hone, hons, rr, hstrip, ?_⟩
        have h2 := hq.symm.trans hs
        simp only [List.append_assoc] at h2
        exact List.append_cancel_left h2
      · exfalso
        have hB : startsL "http://".data spec.data = true := by
          rw [hs]
          simp only [List.append_assoc]
          exact startsL_of_append _ _
        have := startsL_both hB hA (by decide)
        exact absurd this (by decide)
      · exfalso
        have hG : startsL "github.com/".data spec.data = true := by
          rw [hs]
          simp only [List.nil_append, List.append_assoc]
          exact startsL_of_append _ _
        have := startsL_both hA hG (by decide)
        exact absurd this (by decide)
  · rw [if_neg hA]
    by_cases hB : startsL "http://".data spec.data = true
    · rw [if_pos hB]
      obtain ⟨q, hq⟩ := (startsL_iff _ _).mp hB
      have hdrop : spec.data.drop 7 = q := by
        rw [hq, ← (show ("http://".data).length = 7 by decide)]
        exact List.drop_left _ _
      rw [hdrop, matchHostPath_some_iff]
      constructor
      · rintro ⟨hone, hons, rr, hstrip, hq2⟩
        exact ⟨"http://".data, rr, Or.inr (Or.inl rfl), hone, hons, hstrip, by
          rw [hq, hq2]; simp [List.append_assoc]⟩
      · rintro ⟨scheme, rr, hsch, hone, hons, hstrip, hs⟩
        rcases hsch with rfl | rfl | rfl
        · exfalso
          apply hA
          rw [hs]
          simp only [List.append_assoc]
          exact startsL_of_append _ _
        · refine ⟨hone, hons, rr, hstrip, ?_⟩
          have h2 := hq.symm.trans hs
          simp only [List.append_assoc] at h2
          exact List.append_cancel_left h2
        · exfalso
          have hG : startsL "github.com/".data spec.data = true := by
            rw [hs]
            simp only [List.nil_append, List.append_assoc]
            exact startsL_of_append _ _
          have := startsL_both hB hG (by decide)
          exact absurd this (by decide)
    · rw [if_neg hB, matchHostPath_some_iff]
      constructor
      · rintro ⟨hone, hons, rr, hstrip, hq2⟩
        exact ⟨[], rr, Or.inr (Or.inr rfl), hone, hons, hstrip, by
          rw [hq2]; simp⟩
      · rintro ⟨scheme, rr, hsch, hone, hons, hstrip, hs⟩
        rcases hsch with rfl | rfl | rfl
        · exfalso
          apply hA
          rw [hs]
          simp only [List.append_assoc]
          exact startsL_of_append _ _
        · exfalso
          apply hB
          rw [hs]
          simp only [List.append_assoc]
          exact startsL_of_append _ _
        · refine ⟨hone, hons, rr, hstrip, ?_⟩
          rw [hs]
          simp

theorem noSlash_count {l : List Char} (h : noSlash l = true) :
    List.count '/' l = 0 := by
  rw [List.count_eq_zero]
  intro hm
  have := List.all_eq_true.mp h _ hm
  simp at this

theorem codeUrlSplit_two_slashes {s o r : List Char} (h : codeUrlSplit s o r) :
    2 ≤ List.count '/' s := by
  obtain ⟨scheme, rr, hsch, -, -, -, rfl⟩ := h
  have hgh : List.count '/' "github.com/".data = 1 := by decide
  rw [List.count_append, List.count_append, List.count_append, hgh, List.count_cons]
  simp
  omega

theorem oneSlash_count {s o r : List Char} (h : oneSlashSplit s o r) :
    List.count '/' s = 1 := by
  obtain ⟨rfl, ho, hr⟩ := h
  rw [List.count_append, List.count_cons, noSlash_count ho, noSlash_count hr]
  simp

theorem splitPair_some_iff (l o r : List Char) :
    splitPair l = some (⟨o⟩, ⟨r⟩) ↔ oneSlashSplit l o r := by
  unfold splitPair oneSlashSplit
  constructor
  · intro h
    cases hs : splitOnCh '/' l with
    | nil => exact absurd hs (splitOnCh_ne_nil _ _)
    | cons a tl =>
      cases tl with
      | nil => rw [hs] at h; cases h
      | cons b tl2 =>
        cases tl2 with
        | nil =>
          rw [hs] at h
          have ha : a = o := congrArg (String.data ∘ Prod.fst) (Option.some.inj h)
          have hb : b = r := congrArg (String.data ∘ Prod.snd) (Option.some.inj h)
          subst ha
          subst hb
          exact (splitOnCh_pair '/' l a b).mp hs
        | cons c tl3 => rw [hs] at h; cases h
  · rintro ⟨rfl, ho, hr⟩
    rw [(splitOnCh_pair '/' (o ++ '/' :: r) o r).mpr ⟨rfl, ho, hr⟩]

theorem parse_repo_spec_some_iff (spec o r : String) :
    parse_repo_spec spec = some (o, r) ↔
      codeUrlSplit spec.data o.data r.data ∨ oneSlashSplit spec.data o.data r.data := by
  obtain ⟨od⟩ := o
  obtain ⟨rd⟩ := r
  unfold parse_repo_spec
  cases hurl : matchGithubUrl spec with
  | some pair =>
    obtain ⟨⟨pod⟩, ⟨prd⟩⟩ := pair
    constructor
    · intro h
      have h1 : pod = od := congrArg (String.data ∘ Prod.fst) (Option.some.inj h)
      have h2 : prd = rd := congrArg (String.data ∘ Prod.snd) (Option.some.inj h)
      subst h1
      subst h2
      exact Or.inl ((matchGithubUrl_some_iff spec pod prd).mp hurl)
    · rintro (hcode | hone)
      · have h2 := (matchGithubUrl_some_iff spec od rd).mpr hcode
        rw [hurl] at h2
        exact h2
      · exfalso
        have h2 := (matchGithubUrl_some_iff spec pod prd).mp hurl
        have hc := codeUrlSplit_two_slashes h2
        have h1 := oneSlash_count hone
        omega
  | none =>
    constructor
    · intro h
      exact Or.inr ((splitPair_some_iff spec.data od rd).mp h)
    · rintro (hcode | hone)
      · exfalso
        have h2 := (matchGithubUrl_some_iff spec od rd).mpr hcode
        rw [hurl] at h2
        cases h2
      · exact (splitPair_some_iff spec.data od rd).mpr hone

/-- C7 counterexample: the claim's two grammars (`owner/repo`, and
`(https://)?host/owner/repo(.git)?(/)?`) do not describe the code.
`"http://github.com/a/b"` is in neither grammar (so the claim demands
`InvalidSpec`), yet the code accepts it — the regex scheme is `https?`.
Conversely `"gitlab.com/a/b"` is in the claim's URL grammar (host is
unconstrained there), yet the code rejects it — the regex host is fixed
to `github.com`. -/
theorem C7_counterexample_scheme_and_host :
    parse_repo_spec "http://github.com/a/b" = some ("a", "b") ∧
    (¬ ∃ o r, oneSlashSplit "http://github.com/a/b".data o r ∨
        claimUrlSplit "http://github.com/a/b".data o r) ∧
    parse_repo_spec "gitlab.com/a/b" = none ∧
    claimUrlSplit "gitlab.com/a/b".data "a".data "b".data := by
  refine ⟨by decide, ?_, by decide, ?_⟩
  · rintro ⟨o, r, h | h⟩
    · have h1 := oneSlash_count h
      have h4 : List.count '/' "http://github.com/a/b".data = 4 := by decide
      omega
    · obtain ⟨scheme, host, t, hsch, hhostne, hhostns, hone, hons, hrne, hrns, ht, hs⟩ := h
      rcases hsch with rfl | rfl
      · have h8 : ("http://github.com/a/b".data).take 8 = "https://".data → False := by
          decide
        apply h8
        rw [hs]
        simp only [List.append_assoc]
        rw [← (show ("https://".data).length = 8 by decide)]
        exact List.take_left _ _
      · have hcount : List.count '/' "http://github.com/a/b".data = 4 := by decide
        rw [hs] at hcount
        simp only [List.nil_append, List.count_append, List.count_cons,
          noSlash_count hhostns, noSlash_count hons, noSlash_count hrns] at hcount
        have htc : List.count '/' t ≤ 1 := by
          rcases ht with rfl | rfl | rfl | rfl <;> decide
        simp at hcount
        omega
  · refine ⟨[], "gitlab.com".data, [], Or.inr rfl, by decide, by decide, by decide,
      by decide, by decide, by decide, Or.inl rfl, by decide⟩

/-- C7 (amended): `parse_repo_spec` accepts exactly two grammars — any
string with exactly one `/`, split at it into `(owner, repo)`; and a URL
`(https?://)?github.com/owner/repo(.git)?(/)?` (scheme optionally plain
`http`, host fixed to `github.com`, the longest trailing marker among
`.git/`, `.git`, `/` that leaves a non-empty slash-free repo stripped) —
and fails with `InvalidSpec` on every other input; moreover
`parse_repo_spec("junegunn/fzf") = ("junegunn","fzf")`,
`parse_repo_spec("https://github.com/BurntSushi/ripgrep") =
("BurntSushi","ripgrep")`, and `parse_repo_spec("not a spec")` fails. -/
theorem C7_amended_parse_repo_spec :
    (∀ (spec o r : String),
      parse_repo_spec spec = some (o, r) ↔
        codeUrlSplit spec.data o.data r.data ∨ oneSlashSplit spec.data o.data r.data) ∧
    parse_repo_spec "junegunn/fzf" = some ("junegunn", "fzf") ∧
    parse_repo_spec "https://github.com/BurntSushi/ripgrep" =
      some ("BurntSushi", "ripgrep") ∧
    parse_repo_spec "not a spec" = none :=
  ⟨parse_repo_spec_some_iff, by decide, by decide, by decide⟩

/-! ## Archive extractor (`core/extractor.py`): `find_scripts`

A scanned file is modelled by its path parts relative to the scanned root
(last part = filename, mirroring `item.relative_to(directory).parts`) plus
the result of `is_script` on its content (file reading is abstracted to
this flag).  `directory.rglob("*")` enumeration order is the order of the
input list.  The source checks `item.parts`, which prepends the parts of
the scanned root itself, so the root's parts are a parameter. -/

structure SFile where
  rel : List String
  script : Bool
deriving DecidableEq, Repr

/-- `exclude_patterns` of `find_scripts`. -/
def SCRIPT_EXCLUDE_DIRS : List String :=
  ["test", "tests", "spec", "specs", "example", "examples",
   "doc", "docs", "build", "dist", ".git", "node_modules",
   "vendor", "__pycache__", ".github"]

/-- `exclude_extensions` of `find_scripts`. -/
def SCRIPT_EXCLUDE_EXTS : List String :=
  [".md", ".txt", ".rst", ".json", ".yaml", ".yml", ".toml"]

/-- Split a character list at its last `.` (before, after). -/
def splitLastDot : List Char → Option (List Char × List Char)
  | [] => none
  | c :: cs =>
    match splitLastDot cs with
    | some (a, b) => some (c :: a, b)
    | none => if c = '.' then some ([], cs) else none

/-- `pathlib.PurePath.suffix`: the final dot-suffix of the name, empty
when the last dot is the first or the final character. -/
def pySuffix (name : String) : String :=
  match splitLastDot name.data with
  | some (a, b) => if a ≠ [] ∧ b ≠ [] then ⟨'.' :: b⟩ else ""
  | none => ""

/-- `pathlib.PurePath.stem`: the name with `pySuffix` removed. -/
def pyStem (name : String) : String :=
  match splitLastDot name.data with
  | some (a, b) => if a ≠ [] ∧ b ≠ [] then ⟨a⟩ else name
  | none => name

def fileName (f : SFile) : String := f.rel.getLastD ""

/-- The truthiness-guarded stem comparison
`repo_name and p.stem.lower() == repo_name.lower()`. -/
def nameMatches (repo_name : Option String) (f : SFile) : Bool :=
  match repo_name with
  | some rn => !(rn == "") && (lowerS (pyStem (fileName f)) == lowerS rn)
  | none => false

/-- `sort_key(p)` of `find_scripts`: `(name_match, depth, p.name.lower())`. -/
def scriptSortKey (repo_name : Option String) (f : SFile) : Nat × Nat × List Char :=
  (if nameMatches repo_name f then 0 else 1, f.rel.length, (lowerS (fileName f)).data)

/-- Python tuple `<=` on the sort keys (lexicographic; the string
component compares by code point). -/
def keyLE (k1 k2 : Nat × Nat × List Char) : Prop :=
  k1.1 < k2.1 ∨ (k1.1 = k2.1 ∧
    (k1.2.1 < k2.2.1 ∨ (k1.2.1 = k2.2.1 ∧ k1.2.2 ≤ k2.2.2)))

instance keyLE.decidable : ∀ k1 k2, Decidable (keyLE k1 k2) := fun k1 k2 => by
  unfold keyLE
  infer_instance

theorem keyLE_total (k1 k2 : Nat × Nat × List Char) : keyLE k1 k2 ∨ keyLE k2 k1 := by
  unfold keyLE
  rcases lt_trichotomy k1.1 k2.1 with h | h | h
  · exact Or.inl (Or.inl h)
  · rcases lt_trichotomy k1.2.1 k2.2.1 with h2 | h2 | h2
    · exact Or.inl (Or.inr ⟨h, Or.inl h2⟩)
    · rcases le_total k1.2.2 k2.2.2 with h3 | h3
      · exact Or.inl (Or.inr ⟨h, Or.inr ⟨h2, h3⟩⟩)
      · exact Or.inr (Or.inr ⟨h.symm, Or.inr ⟨h2.symm, h3⟩⟩)
    · exact Or.inr (Or.inr ⟨h.symm, Or.inl h2⟩)
  · exact Or.inr (Or.inl h)

theorem keyLE_trans {k1 k2 k3 : Nat × Nat × List Char}
    (h1 : keyLE k1 k2) (h2 : keyLE k2 k3) : keyLE k1 k3 := by
  unfold keyLE at h1 h2 ⊢
  rcases h1 with h1 | ⟨e1, h1⟩ <;> rcases h2 with h2 | ⟨e2, h2⟩
  · exact Or.inl (h1.trans h2)
  · exact Or.inl (e2 ▸ h1)
  · exact Or.inl (e1 ▸ h2)
  · refine Or.inr ⟨e1.trans e2, ?_⟩
    rcases h1 with h1 | ⟨f1, h1⟩ <;> rcases h2 with h2 | ⟨f2, h2⟩
    · exact Or.inl (h1.trans h2)
    · exact Or.inl (f2 ▸ h1)
    · exact Or.inl (f1 ▸ h2)
    · exact Or.inr ⟨f1.trans f2, h1.trans h2⟩

/-- The sort relation actually used: keys compared under `keyLE`. -/
def scriptLE (repo_name : Option String) (f g : SFile) : Prop :=
  keyLE (scriptSortKey repo_name f) (scriptSortKey repo_name g)

instance scriptLE.decidable (repo_name : Option String) :
    DecidableRel (scriptLE repo_name) := fun _ _ => keyLE.decidable _ _

instance scriptLE.isTotal (repo_name : Option String) :
    IsTotal SFile (scriptLE repo_name) := ⟨fun _ _ => keyLE_total _ _⟩

instance scriptLE.isTrans (repo_name : Option String) :
    IsTrans SFile (scriptLE repo_name) := ⟨fun _ _ _ => keyLE_trans⟩

/-- The filter stage of `find_scripts`: no path part (including the
scanned root's own parts and the filename) lowercases into the directory
denylist, the lowercased suffix is not in the extension denylist, and the
file is a script. -/
def scriptSurvives (rootParts : List String) (f : SFile) : Bool :=
  (!((rootParts ++ f.rel).any fun part => SCRIPT_EXCLUDE_DIRS.contains (lowerS part))) &&
    (!(SCRIPT_EXCLUDE_EXTS.contains (lowerS (pySuffix (fileName f))))) &&
    f.script

/-- `find_scripts(directory, repo_name)` from `core/extractor.py`:
filter, then stable sort by `scriptSortKey` (Python's `list.sort` is
stable; `List.insertionSort` with a non-strict relation models it). -/
def find_scripts (rootParts : List String) (files : List SFile)
    (repo_name : Option String) : List SFile :=
  (files.filter (scriptSurvives rootParts)).insertionSort (scriptLE repo_name)

/-- The composite key as the claim literally words it: stem compared to
the repo name *verbatim*, and the plain (not lowercased) filename as the
tiebreak. -/
def claimSortKey (repo_name : Option String) (f : SFile) : Nat × Nat × List Char :=
  ((if (match repo_name with
        | some rn => !(rn == "") && (pyStem (fileName f) == rn)
        | none => false) then 0 else 1),
   f.rel.length, (fileName f).data)

/-- C9 counterexample: the code sorts by the *lowercased* filename
(`p.name.lower()`), not by the filename itself.  For two root-level
scripts `"B"` and `"a"` (repo `"tool"`, no stem match), the code returns
`["a", "B"]`, which is not sorted by the claim's literal key: the claim
would put `"B"` (code point 66) before `"a"` (code point 97). -/
theorem C9_counterexample_lowercased_tiebreak :
    find_scripts [] [⟨["B"], true⟩, ⟨["a"], true⟩] (some "tool") =
      [⟨["a"], true⟩, ⟨["B"], true⟩] ∧
    ¬ keyLE (claimSortKey (some "tool") ⟨["a"], true⟩)
        (claimSortKey (some "tool") ⟨["B"], true⟩) := by
  constructor
  · decide
  · decide

/-- C9 (amended): `find_scripts` returns exactly the files surviving the
directory-segment and extension denylists that are scripts, sorted by the
composite key (case-insensitive stem-matches-repo-name first, then path
depth ascending, then *lowercased* filename lexicographic); in particular
for scripts `["tool", "a/tool-helper", "b/c/d/tool"]` in repo `"tool"`
the top-ranked entry is the shallowest one whose stem equals `"tool"`. -/
theorem C9_amended_find_scripts_ordering :
    (∀ (rootParts : List String) (files : List SFile) (repo_name : Option String),
      (find_scripts rootParts files repo_name).Perm
        (files.filter (scriptSurvives rootParts)) ∧
      List.Sorted (scriptLE repo_name) (find_scripts rootParts files repo_name)) ∧
    find_scripts [] [⟨["tool"], true⟩, ⟨["a", "tool-helper"], true⟩,
        ⟨["b", "c", "d", "tool"], true⟩] (some "tool") =
      [⟨["tool"], true⟩, ⟨["b", "c", "d", "tool"], true⟩,
        ⟨["a", "tool-helper"], true⟩] := by
  refine ⟨fun rootParts files repo_name => ⟨?_, ?_⟩, by decide⟩
  · exact List.perm_insertionSort _ _
  · exact List.sorted_insertionSort _ _

/-! ## Archive extractor (`core/extractor.py`): `extract_archive`

An archive entry is its member name split on `/` (an absolute name yields
a leading empty segment, as in Python's `"/a/b".split("/")`).  The
destination paths produced by extraction are segment lists relative to
the staging directory; `resolveSegs [] p` is `some q` exactly when
joining `p` under the staging root stays inside it (no `..` climbs
above), `none` when it escapes. -/

structure Entry where
  segs : List String
deriving DecidableEq, Repr

/-- Filesystem path resolution on a symlink-free tree: empty and `.`
segments vanish, `..` pops, `none` when a `..` would climb above the
root.  (`os.path.realpath` as used by the tar data filter.) -/
def resolveSegs (stack : List String) : List String → Option (List String)
  | [] => some stack.reverse
  | s :: rest =>
    if s = "" ∨ s = "." then resolveSegs stack rest
    else if s = ".." then
      match stack with
      | [] => none
      | _ :: stack' => resolveSegs stack' rest
    else resolveSegs (s :: stack) rest

/-- Modelled from the spec: the Python 3.12+ `tarfile` "data" extraction
filter invoked by `tar.extractall(dest_dir, filter="data")` (the spec's
"data filter tar-extraction mode"; the `tarfile` module itself is outside
this repository): absolute member names raise `AbsolutePathError` and
names resolving outside the destination raise `OutsideDestinationError`
(both subclasses of `TarError`, so `extract_archive` re-raises them as
`ExtractionError`); accepted members extract at their resolved relative
path. -/
def tarDataFilter (e : Entry) : Except String (List String) :=
  if e.segs.head? = some "" then .error "absolute path"
  else
    match resolveSegs [] e.segs with
    | none => .error "outside destination"
    | some p => .ok p

/-- Modelled from the spec: `zipfile.ZipFile.extract` member-name
sanitization (Python standard library, outside this repository): the
drive and leading separators are discarded and every `""`, `"."`, `".."`
component is dropped; the member lands at the joined remainder. -/
def zipSanitize (e : Entry) : List String :=
  e.segs.filter fun s => !(s == "" || s == "." || s == "..")

inductive ArchiveKind
  | targz | tarxz | tar | zip | gz | raw
deriving DecidableEq, Repr

/-- The suffix dispatch at the top of `extract_archive` (on the
lowercased archive filename; `.tar.gz` and `.tgz` share a branch). -/
def archiveKind (archiveName : String) : ArchiveKind :=
  let n := lowerS archiveName
  if strEnds n ".tar.gz" || strEnds n ".tgz" then .targz
  else if strEnds n ".tar.xz" then .tarxz
  else if strEnds n ".tar" then .tar
  else if strEnds n ".zip" then .zip
  else if strEnds n ".gz" then .gz
  else .raw

/-- One tar member at a time, as `extractall` does: a filter rejection
raises, aborting the loop; members extracted before the failure stay on
disk and are therefore still reported in the first component. -/
def extractTarEntries : List Entry → List (List String) × Bool
  | [] => ([], false)
  | e :: es =>
    match tarDataFilter e with
    | .error _ => ([], true)
    | .ok p =>
      let r := extractTarEntries es
      (p :: r.1, r.2)

/-- `extract_archive(archive_path)` from `core/extractor.py`, returning
the relative paths of the files created in the staging directory and
whether `ExtractionError` was raised.  `archiveName` is
`archive_path.name` (a basename).  The `.gz` branch writes the single
file `archive_path.stem`; the raw branch copies the file verbatim under
its own name. -/
def extract_archive (archiveName : String) (entries : List Entry) :
    List (List String) × Bool :=
  match archiveKind archiveName with
  | .targz => extractTarEntries entries
  | .tarxz => extractTarEntries entries
  | .tar => extractTarEntries entries
  | .zip => (entries.map zipSanitize, false)
  | .gz => ([[pyStem archiveName]], false)
  | .raw => ([[archiveName]], false)

/-- A segment that survives resolution untouched. -/
def cleanSeg (s : String) : Prop := s ≠ "" ∧ s ≠ "." ∧ s ≠ ".."

theorem resolveSegs_clean (segs : List String) : ∀ stack p,
    (∀ s ∈ stack, cleanSeg s) → resolveSegs stack segs = some p →
    ∀ s ∈ p, cleanSeg s := by
  induction segs with
  | nil =>
    intro stack p hstack h
    unfold resolveSegs at h
    cases h
    intro s hs
    exact hstack s (by simpa using hs)
  | cons x rest ih =>
    intro stack p hstack h
    unfold resolveSegs at h
    by_cases h1 : x = "" ∨ x = "."
    · rw [if_pos h1] at h
      exact ih stack p hstack h
    rw [if_neg h1] at h
    by_cases h2 : x = ".."
    · rw [if_pos h2] at h
      cases stack with
      | nil => cases h
      | cons y stack' =>
        exact ih stack' p (fun s hs => hstack s (List.mem_cons_of_mem _ hs)) h
    · rw [if_neg h2] at h
      push_neg at h1
      refine ih (x :: stack) p ?_ h
      intro s hs
      rcases List.mem_cons.mp hs with rfl | hs2
      · exact ⟨h1.1, h1.2, h2⟩
      · exact hstack s hs2

theorem resolveSegs_of_clean (p : List String) : ∀ stack,
    (∀ s ∈ p, cleanSeg s) → resolveSegs stack p = some (stack.reverse ++ p) := by
  induction p with
  | nil =>
    intro stack _
    simp [resolveSegs]
  | cons x rest ih =>
    intro stack hclean
    have hx := hclean x (List.mem_cons_self _ _)
    unfold resolveSegs
    rw [if_neg (by push_neg; exact ⟨hx.1, hx.2.1⟩), if_neg hx.2.2]
    rw [ih (x :: stack) (fun s hs => hclean s (List.mem_cons_of_mem _ hs))]
    simp

theorem tarDataFilter_ok_resolves (e : Entry) (p : List String)
    (h : tarDataFilter e = .ok p) : resolveSegs [] p = some p := by
  unfold tarDataFilter at h
  by_cases h1 : e.segs.head? = some ""
  · rw [if_pos h1] at h
    cases h
  rw [if_neg h1] at h
  cases hres : resolveSegs [] e.segs with
  | none => rw [hres] at h; cases h
  | some q =>
    rw [hres] at h
    cases h
    have hclean := resolveSegs_clean e.segs [] p (by simp) hres
    have := resolveSegs_of_clean p [] hclean
    simpa using this

theorem extractTarEntries_mem (entries : List Entry) : ∀ p,
    p ∈ (extractTarEntries entries).1 → ∃ e ∈ entries, tarDataFilter e = .ok p := by
  induction entries with
  | nil =>
    intro p hp
    simp [extractTarEntries] at hp
  | cons e es ih =>
    intro p hp
    unfold extractTarEntries at hp
    cases hf : tarDataFilter e with
    | error msg => rw [hf] at hp; simp at hp
    | ok q =>
      rw [hf] at hp
      simp only [List.mem_cons] at hp
      rcases hp with rfl | hp2
      · exact ⟨e, List.mem_cons_self _ _, hf⟩
      · obtain ⟨e', he', hf'⟩ := ih p hp2
        exact ⟨e', List.mem_cons_of_mem _ he', hf'⟩

/-- C5: for every archive of a supported entry-bearing format (tar.gz /
tgz, tar.xz, tar, zip), no archive entry — in particular `../../evil` or
an absolute one — produces a file outside the staging directory: every
path actually created resolves inside the staging root (tar rejects
offending entries with `ExtractionError`; zip rewrites them to a safe
relative path). -/
theorem C5_extract_archive_no_escape (archiveName : String) (entries : List Entry)
    (hkind : archiveKind archiveName ∈
      [ArchiveKind.targz, ArchiveKind.tarxz, ArchiveKind.tar, ArchiveKind.zip]) :
    ∀ p ∈ (extract_archive archiveName entries).1,
      (resolveSegs [] p).isSome = true := by
  intro p hp
  unfold extract_archive at hp
  cases hk : archiveKind archiveName with
  | targz =>
    rw [hk] at hp
    obtain ⟨e, -, hf⟩ := extractTarEntries_mem entries p hp
    rw [tarDataFilter_ok_resolves e p hf]
    rfl
  | tarxz =>
    rw [hk] at hp
    obtain ⟨e, -, hf⟩ := extractTarEntries_mem entries p hp
    rw [tarDataFilter_ok_resolves e p hf]
    rfl
  | tar =>
    rw [hk] at hp
    obtain ⟨e, -, hf⟩ := extractTarEntries_mem entries p hp
    rw [tarDataFilter_ok_resolves e p hf]
    rfl
  | zip =>
    rw [hk] at hp
    simp only [List.mem_map] at hp
    obtain ⟨e, -, rfl⟩ := hp
    have hclean : ∀ s ∈ zipSanitize e, cleanSeg s := by
      intro s hs
      obtain ⟨-, hcond⟩ := List.mem_filter.mp hs
      simp only [Bool.not_eq_true', Bool.or_eq_false_iff, beq_eq_false_iff_ne] at hcond
      exact ⟨hcond.1.1, hcond.1.2, hcond.2⟩
    rw [resolveSegs_of_clean (zipSanitize e) [] hclean]
    rfl
  | gz => rw [hk] at hkind; simp at hkind
  | raw => rw [hk] at hkind; simp at hkind

/-- Witness for C5 at concrete inputs: the traversal entry `../../evil`
in a zip is rewritten to the safe relative path `evil` (which resolves
inside the staging root, as the theorem asserts), while in a tar.gz it is
rejected with `ExtractionError` and nothing is reported extracted. -/
theorem C5_extract_archive_no_escape_witness :
    (archiveKind "a.zip" ∈
      [ArchiveKind.targz, ArchiveKind.tarxz, ArchiveKind.tar, ArchiveKind.zip]) ∧
    (extract_archive "a.zip" [⟨["..", "..", "evil"]⟩]).1 = [["evil"]] ∧
    (∀ p ∈ (extract_archive "a.zip" [⟨["..", "..", "evil"]⟩]).1,
      (resolveSegs [] p).isSome = true) ∧
    extract_archive "evil.tar.gz" [⟨["..", "..", "evil"]⟩] = ([], true) ∧
    extract_archive "evil.tar.gz" [⟨["", "etc", "passwd"]⟩] = ([], true) :=
  ⟨by decide, by decide,
    C5_extract_archive_no_escape "a.zip" [⟨["..", "..", "evil"]⟩] (by decide),
    by decide, by decide⟩

/-! ## Package model (`models/package.py`)

`installed_at` is a naive `datetime` (the repository only ever stores
`datetime.now()`); its ISO-8601 rendering and parsing are modelled at the
character level. -/

structure PyDateTime where
  year : Nat
  month : Nat
  day : Nat
  hour : Nat
  minute : Nat
  second : Nat
  microsecond : Nat
deriving DecidableEq, Repr

/-- The field invariant `datetime` itself guarantees. -/
def PyDateTime.valid (d : PyDateTime) : Prop :=
  1 ≤ d.year ∧ d.year ≤ 9999 ∧ 1 ≤ d.month ∧ d.month ≤ 12 ∧
    1 ≤ d.day ∧ d.day ≤ 31 ∧ d.hour ≤ 23 ∧ d.minute ≤ 59 ∧
    d.second ≤ 59 ∧ d.microsecond ≤ 999999

instance PyDateTime.valid.decidable (d : PyDateTime) : Decidable d.valid := by
  unfold PyDateTime.valid
  infer_instance

def digitCh (n : Nat) : Char := Char.ofNat (48 + n)

def digitVal (c : Char) : Nat := c.toNat - 48

def isDigitCh (c : Char) : Bool := '0' ≤ c && c ≤ '9'

def pad2 (n : Nat) : List Char := [digitCh (n / 10), digitCh (n % 10)]

def pad4 (n : Nat) : List Char :=
  [digitCh (n / 1000), digitCh (n / 100 % 10), digitCh (n / 10 % 10), digitCh (n % 10)]

def pad6 (n : Nat) : List Char :=
  [digitCh (n / 100000), digitCh (n / 10000 % 10), digitCh (n / 1000 % 10),
   digitCh (n / 100 % 10), digitCh (n / 10 % 10), digitCh (n % 10)]

/-- `datetime.isoformat()` on a naive value: `YYYY-MM-DDTHH:MM:SS`, with
`.ffffff` appended exactly when `microsecond` is non-zero. -/
def PyDateTime.isoformat (d : PyDateTime) : String :=
  ⟨pad4 d.year ++ '-' :: pad2 d.month ++ '-' :: pad2 d.day ++ 'T' :: pad2 d.hour ++
    ':' :: pad2 d.minute ++ ':' :: pad2 d.second ++
    (if d.microsecond = 0 then [] else '.' :: pad6 d.microsecond)⟩

/-- Consume exactly `w` decimal digits. -/
def parseNat (w : Nat) (l : List Char) : Option (Nat × List Char) :=
  let digs := l.take w
  if digs.length = w ∧ digs.all isDigitCh then
    some (digs.foldl (fun acc c => acc * 10 + digitVal c) 0, l.drop w)
  else none

/-- Consume one expected character. -/
def expectCh (c : Char) : List Char → Option (List Char)
  | x :: rest => if x = c then some rest else none
  | [] => none

/-- Modelled from the spec: `datetime.fromisoformat`, restricted to the
sublanguage emitted by `isoformat` on naive values (the standard library
parser, outside this repository, accepts a superset; only this grammar is
reachable from `Package.to_dict` output, and other inputs map to `none`
the way unparsable strings raise `ValueError`). -/
def fromisoformat (s : String) : Option PyDateTime :=
  match parseNat 4 s.data with
  | none => none
  | some (y, r1) =>
    match expectCh '-' r1 with
    | none => none
    | some r2 =>
      match parseNat 2 r2 with
      | none => none
      | some (mo, r3) =>
        match expectCh '-' r3 with
        | none => none
        | some r4 =>
          match parseNat 2 r4 with
          | none => none
          | some (da, r5) =>
            match expectCh 'T' r5 with
            | none => none
            | some r6 =>
              match parseNat 2 r6 with
              | none => none
              | some (ho, r7) =>
                match expectCh ':' r7 with
                | none => none
                | some r8 =>
                  match parseNat 2 r8 with
                  | none => none
                  | some (mi, r9) =>
                    match expectCh ':' r9 with
                    | none => none
                    | some r10 =>
                      match parseNat 2 r10 with
                      | none => none
                      | some (se, rest) =>
                        match rest with
                        | [] => some ⟨y, mo, da, ho, mi, se, 0⟩
                        | '.' :: us =>
                          match parseNat 6 us with
                          | some (u, []) => some ⟨y, mo, da, ho, mi, se, u⟩
                          | _ => none
                        | _ => none

theorem digitCh_isDigit {k : Nat} (h : k < 10) : isDigitCh (digitCh k) = true := by
  interval_cases k <;> decide

theorem digitVal_digitCh {k : Nat} (h : k < 10) : digitVal (digitCh k) = k := by
  interval_cases k <;> decide

theorem expectCh_cons (c : Char) (rest : List Char) :
    expectCh c (c :: rest) = some rest := by
  simp [expectCh]

theorem parseNat_pad2 (n : Nat) (h : n < 100) (rest : List Char) :
    parseNat 2 (pad2 n ++ rest) = some (n, rest) := by
  unfold parseNat pad2
  have h1 : n / 10 < 10 := by omega
  have h2 : n % 10 < 10 := by omega
  rw [List.take_left' (by simp), List.drop_left' (by simp)]
  rw [if_pos ⟨by simp, by
    simp only [List.all_cons, List.all_nil, Bool.and_eq_true]
    exact ⟨digitCh_isDigit h1, digitCh_isDigit h2, trivial⟩⟩]
  simp only [List.foldl_cons, List.foldl_nil, digitVal_digitCh h1, digitVal_digitCh h2]
  have : (0 * 10 + n / 10) * 10 + n % 10 = n := by omega
  rw [this]

theorem parseNat_pad4 (n : Nat) (h : n < 10000) (rest : List Char) :
    parseNat 4 (pad4 n ++ rest) = some (n, rest) := by
  unfold parseNat pad4
  have h1 : n / 1000 < 10 := by omega
  have h2 : n / 100 % 10 < 10 := by omega
  have h3 : n / 10 % 10 < 10 := by omega
  have h4 : n % 10 < 10 := by omega
  rw [List.take_left' (by simp), List.drop_left' (by simp)]
  rw [if_pos ⟨by simp, by
    simp only [List.all_cons, List.all_nil, Bool.and_eq_true]
    exact ⟨digitCh_isDigit h1, digitCh_isDigit h2, digitCh_isDigit h3,
      digitCh_isDigit h4, trivial⟩⟩]
  simp only [List.foldl_cons, List.foldl_nil, digitVal_digitCh h1,
    digitVal_digitCh h2, digitVal_digitCh h3, digitVal_digitCh h4]
  have : (((0 * 10 + n / 1000) * 10 + n / 100 % 10) * 10 + n / 10 % 10) * 10 + n % 10
      = n := by omega
  rw [this]

theorem parseNat_pad6 (n : Nat) (h : n < 1000000) (rest : List Char) :
    parseNat 6 (pad6 n ++ rest) = some (n, rest) := by
  unfold parseNat pad6
  have h1 : n / 100000 < 10 := by omega
  have h2 : n / 10000 % 10 < 10 := by omega
  have h3 : n / 1000 % 10 < 10 := by omega
  have h4 : n / 100 % 10 < 10 := by omega
  have h5 : n / 10 % 10 < 10 := by omega
  have h6 : n % 10 < 10 := by omega
  rw [List.take_left' (by simp), List.drop_left' (by simp)]
  rw [if_pos ⟨by simp, by
    simp only [List.all_cons, List.all_nil, Bool.and_eq_true]
    exact ⟨digitCh_isDigit h1, digitCh_isDigit h2, digitCh_isDigit h3,
      digitCh_isDigit h4, digitCh_isDigit h5, digitCh_isDigit h6, trivial⟩⟩]
  simp only [List.foldl_cons, List.foldl_nil, digitVal_digitCh h1, digitVal_digitCh h2,
    digitVal_digitCh h3, digitVal_digitCh h4, digitVal_digitCh h5, digitVal_digitCh h6]
  have : (((((0 * 10 + n / 100000) * 10 + n / 10000 % 10) * 10 + n / 1000 % 10) * 10
      + n / 100 % 10) * 10 + n / 10 % 10) * 10 + n % 10 = n := by omega
  rw [this]

theorem fromisoformat_isoformat (d : PyDateTime) (h : d.valid) :
    fromisoformat d.isoformat = some d := by
  obtain ⟨y, mo, da, ho, mi, se, us⟩ := d
  simp only [PyDateTime.valid] at h
  obtain ⟨h1, h2, h3, h4, h5, h6, h7, h8, h9, h10⟩ := h
  by_cases hus : us = 0
  · subst hus
    have hse : parseNat 2 (pad2 se) = some (se, []) := by
      have := parseNat_pad2 se (by omega) []
      simpa using this
    simp [PyDateTime.isoformat, fromisoformat,
      parseNat_pad4 y (by omega : y < 10000), parseNat_pad2 mo (by omega : mo < 100),
      parseNat_pad2 da (by omega : da < 100), parseNat_pad2 ho (by omega : ho < 100),
      parseNat_pad2 mi (by omega : mi < 100), hse, expectCh_cons]
  · have hp6 : parseNat 6 (pad6 us) = some (us, []) := by
      have := parseNat_pad6 us (by omega) []
      simpa using this
    simp [PyDateTime.isoformat, fromisoformat, hus,
      parseNat_pad4 y (by omega : y < 10000), parseNat_pad2 mo (by omega : mo < 100),
      parseNat_pad2 da (by omega : da < 100), parseNat_pad2 ho (by omega : ho < 100),
      parseNat_pad2 mi (by omega : mi < 100), parseNat_pad2 se (by omega : se < 100),
      hp6, expectCh_cons]

structure Package where
  name : String
  repo : String
  version : String
  tag : String
  installed_at : PyDateTime
  binaries : List String
  pinned : Bool
  asset : String
deriving DecidableEq, Repr

/-- The dictionary `Package.to_dict` produces (fixed keys); `installed_at`
is optional so that `from_dict`'s `None` branch is representable. -/
structure PackageDict where
  repo : String
  version : String
  tag : String
  installed_at : Option String
  binaries : List String
  pinned : Bool
  asset : String
deriving DecidableEq, Repr

/-- `Package.to_dict` from `models/package.py`. -/
def Package.to_dict (p : Package) : PackageDict :=
  ⟨p.repo, p.version, p.tag, some p.installed_at.isoformat, p.binaries, p.pinned, p.asset⟩

/-- `Package.from_dict(name, data)` from `models/package.py`; `now`
supplies `datetime.now()` for a missing `installed_at`; an unparsable
`installed_at` string raises `ValueError` (`none`). -/
def Package.from_dict (name : String) (data : PackageDict) (now : PyDateTime) :
    Option Package :=
  match data.installed_at with
  | some s =>
    match fromisoformat s with
    | some dt =>
      some ⟨name, data.repo, data.version, data.tag, dt,
        data.binaries, data.pinned, data.asset⟩
    | none => none
  | none =>
    some ⟨name, data.repo, data.version, data.tag, now,
      data.binaries, data.pinned, data.asset⟩

/-- C10: `Package.from_dict(p.name, p.to_dict())` is `p`: serializing a
package to its manifest dictionary and deserializing it back is the
identity — the `installed_at` timestamp survives the ISO-8601 string
round-trip, and `repo`, `version`, `tag`, `binaries`, `pinned`, `asset`
are preserved unchanged. -/
theorem C10_package_to_dict_from_dict_roundtrip (p : Package) (now : PyDateTime)
    (h : p.installed_at.valid) :
    Package.from_dict p.name p.to_dict now = some p := by
  simp only [Package.from_dict, Package.to_dict,
    fromisoformat_isoformat p.installed_at h]

/-- Witness for C10 at a concrete package (one with microseconds and one
with a whole-second timestamp). -/
theorem C10_package_to_dict_from_dict_roundtrip_witness :
    (PyDateTime.valid ⟨2026, 10, 12, 3, 4, 5, 123456⟩ ∧
      Package.from_dict "fzf"
        (Package.to_dict ⟨"fzf", "junegunn/fzf", "0.1", "v0.1",
          ⟨2026, 10, 12, 3, 4, 5, 123456⟩, ["fzf"], false, "fzf.tar.gz"⟩)
        ⟨2000, 1, 1, 0, 0, 0, 0⟩ =
      some ⟨"fzf", "junegunn/fzf", "0.1", "v0.1",
        ⟨2026, 10, 12, 3, 4, 5, 123456⟩, ["fzf"], false, "fzf.tar.gz"⟩) ∧
    (PyDateTime.valid ⟨1999, 1, 31, 23, 59, 59, 0⟩ ∧
      Package.from_dict "rg"
        (Package.to_dict ⟨"rg", "BurntSushi/ripgrep", "14", "14",
          ⟨1999, 1, 31, 23, 59, 59, 0⟩, ["rg"], true, "(source)"⟩)
        ⟨2000, 1, 1, 0, 0, 0, 0⟩ =
      some ⟨"rg", "BurntSushi/ripgrep", "14", "14",
        ⟨1999, 1, 31, 23, 59, 59, 0⟩, ["rg"], true, "(source)"⟩) :=
  ⟨⟨by decide,
    C10_package_to_dict_from_dict_roundtrip
      ⟨"fzf", "junegunn/fzf", "0.1", "v0.1",
        ⟨2026, 10, 12, 3, 4, 5, 123456⟩, ["fzf"], false, "fzf.tar.gz"⟩
      ⟨2000, 1, 1, 0, 0, 0, 0⟩ (by decide)⟩,
   ⟨by decide,
    C10_package_to_dict_from_dict_roundtrip
      ⟨"rg", "BurntSushi/ripgrep", "14", "14",
        ⟨1999, 1, 31, 23, 59, 59, 0⟩, ["rg"], true, "(source)"⟩
      ⟨2000, 1, 1, 0, 0, 0, 0⟩ (by decide)⟩⟩

/-! ## Manifest store (`core/manifest.py`)

The YAML file is modelled by its parsed content (`none` = the file does
not exist); both the file's `packages` mapping and the in-memory
`_packages` dict are insertion-ordered association lists, as Python
dicts are. -/

def MANIFEST_VERSION : Nat := 1

structure ManifestFile where
  version : Nat
  packages : List (String × PackageDict)
deriving DecidableEq, Repr

structure ManifestState where
  file : Option ManifestFile
  mem : List (String × Package)
deriving DecidableEq, Repr

/-- Python dict assignment `d[k] = v`: update in place (keeping the key's
position) or append. -/
def dictSet (k : String) (v : Package) :
    List (String × Package) → List (String × Package)
  | [] => [(k, v)]
  | (k', v') :: rest =>
    if k' = k then (k, v) :: rest else (k', v') :: dictSet k v rest

/-- The removal effect of Python dict `pop(k, None)`. -/
def dictErase (k : String) : List (String × Package) → List (String × Package)
  | [] => []
  | (k', v') :: rest => if k' = k then rest else (k', v') :: dictErase k rest

/-- `k in d`. -/
def dictHas (k : String) (l : List (String × Package)) : Bool :=
  l.any fun kv => kv.1 == k

/-- `d[k].pinned = b`, mutation in place. -/
def dictSetPinned (k : String) (b : Bool) :
    List (String × Package) → List (String × Package)
  | [] => []
  | (k', v') :: rest =>
    if k' = k then
      (k', ⟨v'.name, v'.repo, v'.version, v'.tag, v'.installed_at,
        v'.binaries, b, v'.asset⟩) :: rest
    else (k', v') :: dictSetPinned k b rest

/-- `Manifest.save()`: full durable rewrite of the file from the
in-memory map (version header plus `to_dict` of every package). -/
def Manifest.save (s : ManifestState) : ManifestState :=
  ⟨some ⟨MANIFEST_VERSION, s.mem.map fun kv => (kv.1, Package.to_dict kv.2)⟩, s.mem⟩

/-- `Manifest.add(package)`: insert/update under `package.name`, save. -/
def Manifest.add (p : Package) (s : ManifestState) : ManifestState :=
  Manifest.save ⟨s.file, dictSet p.name p s.mem⟩

/-- `Manifest.remove(name)`: pop; saves only when something was popped. -/
def Manifest.remove (name : String) (s : ManifestState) : ManifestState :=
  if dictHas name s.mem then Manifest.save ⟨s.file, dictErase name s.mem⟩ else s

/-- `Manifest.pin(name)`. -/
def Manifest.pin (name : String) (s : ManifestState) : ManifestState :=
  if dictHas name s.mem then
    Manifest.save ⟨s.file, dictSetPinned name true s.mem⟩
  else s

/-- `Manifest.unpin(name)`. -/
def Manifest.unpin (name : String) (s : ManifestState) : ManifestState :=
  if dictHas name s.mem then
    Manifest.save ⟨s.file, dictSetPinned name false s.mem⟩
  else s

inductive ManifestOp
  | add (p : Package)
  | remove (name : String)
  | pin (name : String)
  | unpin (name : String)
deriving DecidableEq, Repr

def ManifestOp.apply : ManifestOp → ManifestState → ManifestState
  | .add p, s => Manifest.add p s
  | .remove n, s => Manifest.remove n s
  | .pin n, s => Manifest.pin n s
  | .unpin n, s => Manifest.unpin n s

/-- The synchronization invariant of §3 of the spec: the file's packages
mapping equals the serialization of the in-memory map (a missing file
reads as the empty mapping). -/
def ManifestState.synced (s : ManifestState) : Prop :=
  (match s.file with
   | none => []
   | some f => f.packages) =
    s.mem.map fun kv => (kv.1, Package.to_dict kv.2)

instance ManifestState.synced.decidable (s : ManifestState) : Decidable s.synced := by
  unfold ManifestState.synced
  infer_instance

/-- C6: after every mutating `Manifest` operation — `add`, `remove`,
`pin`, `unpin` — the persisted manifest file is synchronized with the
in-memory package map (its packages mapping equals the serialization of
the in-memory map), and the operation either performed a full rewrite of
the file from the in-memory map or left the entire state untouched (the
latter only for `remove`/`pin`/`unpin` of a name that is not present, in
which case nothing was mutated); there is no in-memory-only state
between calls. -/
theorem C6_manifest_mutations_synced (op : ManifestOp) (s : ManifestState)
    (h : s.synced) :
    (op.apply s).synced ∧
    ((op.apply s).file = some ⟨MANIFEST_VERSION,
        (op.apply s).mem.map fun kv => (kv.1, Package.to_dict kv.2)⟩ ∨
      op.apply s = s) := by
  cases op with
  | add p =>
    refine ⟨?_, Or.inl ?_⟩
    · simp [ManifestOp.apply, Manifest.add, Manifest.save, ManifestState.synced]
    · simp [ManifestOp.apply, Manifest.add, Manifest.save]
  | remove n =>
    by_cases hh : dictHas n s.mem = true
    · refine ⟨?_, Or.inl ?_⟩
      · simp [ManifestOp.apply, Manifest.remove, hh, Manifest.save,
          ManifestState.synced]
      · simp [ManifestOp.apply, Manifest.remove, hh, Manifest.save]
    · have : ManifestOp.apply (.remove n) s = s := by
        simp [ManifestOp.apply, Manifest.remove, hh]
      rw [this]
      exact ⟨h, Or.inr rfl⟩
  | pin n =>
    by_cases hh : dictHas n s.mem = true
    · refine ⟨?_, Or.inl ?_⟩
      · simp [ManifestOp.apply, Manifest.pin, hh, Manifest.save,
          ManifestState.synced]
      · simp [ManifestOp.apply, Manifest.pin, hh, Manifest.save]
    · have : ManifestOp.apply (.pin n) s = s := by
        simp [ManifestOp.apply, Manifest.pin, hh]
      rw [this]
      exact ⟨h, Or.inr rfl⟩
  | unpin n =>
    by_cases hh : dictHas n s.mem = true
    · refine ⟨?_, Or.inl ?_⟩
      · simp [ManifestOp.apply, Manifest.unpin, hh, Manifest.save,
          ManifestState.synced]
      · simp [ManifestOp.apply, Manifest.unpin, hh, Manifest.save]
    · have : ManifestOp.apply (.unpin n) s = s := by
        simp [ManifestOp.apply, Manifest.unpin, hh]
      rw [this]
      exact ⟨h, Or.inr rfl⟩

/-- Witness for C6: a fresh manifest (no file yet, empty map) is synced,
and stays synced through an `add` followed by a `pin` of the added name. -/
theorem C6_manifest_mutations_synced_witness :
    (⟨none, []⟩ : ManifestState).synced ∧
    ((ManifestOp.add ⟨"fzf", "junegunn/fzf", "0.1", "v0.1",
        ⟨2026, 1, 2, 3, 4, 5, 0⟩, ["fzf"], false, "fzf.tar.gz"⟩).apply
      ⟨none, []⟩).synced :=
  ⟨by decide,
   (C6_manifest_mutations_synced
      (ManifestOp.add ⟨"fzf", "junegunn/fzf", "0.1", "v0.1",
        ⟨2026, 1, 2, 3, 4, 5, 0⟩, ["fzf"], false, "fzf.tar.gz"⟩)
      ⟨none, []⟩ (by decide)).1⟩

/-! ## Install / update pipelines (`commands/install.py`, `commands/update.py`)

The stages after release selection are modelled by their outcomes
(`InstallEnv` / `UpdateEnv`): whether the download succeeds, whether
`verify_checksum` returns normally (it raises only on a real mismatch,
see C4), whether `extract_archive` raises, and which binary names
`install_binaries` installs.  `SysState.archive` tracks whether this
operation's downloaded artifact file currently exists in the cache. -/

structure InstallEnv where
  downloadOk : Bool
  checksumOk : Bool
  extractOk : Bool
  binaries : List String
deriving DecidableEq, Repr

structure SysState where
  archive : Bool
  binDir : List String
  manifest : ManifestState
deriving DecidableEq, Repr

/-- `install_binaries`: copy into the bin dir, overwriting collisions. -/
def installNames (names : List String) (binDir : List String) : List String :=
  names.foldl (fun d n => if d.contains n then d else d ++ [n]) binDir

/-- `uninstall_binaries`: delete each named file if present. -/
def uninstallNames (names : List String) (binDir : List String) : List String :=
  binDir.filter fun n => !(names.contains n)

/-- `install_from_binary(release, asset, owner, repo, manifest, config)`
from `commands/install.py`.  Returns the function's boolean result and
the final state.  Control flow mirrors the source: download failure
returns before any file exists; a checksum failure unlinks the archive
explicitly; the `finally` block unlinks the archive and removes the
staging directory on every later path; the manifest is written only in
the success path. -/
def install_from_binary (version tag assetName owner repo : String)
    (now : PyDateTime) (env : InstallEnv) (s : SysState) : Bool × SysState :=
  if !env.downloadOk then (false, s)
  else
    let s1 : SysState := ⟨true, s.binDir, s.manifest⟩
    if !env.checksumOk then (false, ⟨false, s1.binDir, s1.manifest⟩)
    else if !env.extractOk then (false, ⟨false, s1.binDir, s1.manifest⟩)
    else if env.binaries = [] then (false, ⟨false, s1.binDir, s1.manifest⟩)
    else
      let s2 : SysState := ⟨true, installNames env.binaries s1.binDir, s1.manifest⟩
      let pkg : Package :=
        ⟨repo, owner ++ "/" ++ repo, version, tag, now, env.binaries, false, assetName⟩
      (true, ⟨false, s2.binDir, Manifest.add pkg s2.manifest⟩)

structure UpdateEnv where
  fetchOk : Bool
  releaseVersion : String
  releaseTag : String
  assetFound : Bool
  assetName : String
  downloadOk : Bool
  checksumOk : Bool
  extractOk : Bool
  binaries : List String
deriving DecidableEq, Repr

/-- `update_package(package, manifest, force)` from `commands/update.py`.
Mirrors the source's ordering: pinned/up-to-date/no-asset checks, then
download, checksum (explicit unlink on mismatch), then removal of the old
binaries *before* extraction, extraction and install under a `finally`
that unlinks the archive, and the manifest rewrite only after success. -/
def update_package (package : Package) (force : Bool) (env : UpdateEnv)
    (now : PyDateTime) (s : SysState) : Bool × SysState :=
  if package.pinned && !force then (false, s)
  else if !env.fetchOk then (false, s)
  else if env.releaseVersion == package.version && !force then (false, s)
  else if !env.assetFound then (false, s)
  else if !env.downloadOk then (false, s)
  else
    let s1 : SysState := ⟨true, s.binDir, s.manifest⟩
    if !env.checksumOk then (false, ⟨false, s1.binDir, s1.manifest⟩)
    else
      let s2 : SysState := ⟨true, uninstallNames package.binaries s1.binDir, s1.manifest⟩
      if !env.extractOk then (false, ⟨false, s2.binDir, s2.manifest⟩)
      else if env.binaries = [] then (false, ⟨false, s2.binDir, s2.manifest⟩)
      else
        let s3 : SysState := ⟨false, installNames env.binaries s2.binDir, s2.manifest⟩
        let pkg : Package :=
          ⟨package.name, package.repo, env.releaseVersion, env.releaseTag, now,
            env.binaries, package.pinned, env.assetName⟩
        (true, ⟨false, s3.binDir, Manifest.add pkg s3.manifest⟩)

/-- C3: in both `install_from_binary` and `update_package`, when the
download has succeeded and the operation nevertheless fails (checksum
mismatch, extraction error, or no executables found), the downloaded
artifact file is removed and the manifest is left unmodified; the
manifest is written — as a single `Manifest.add` of the new package —
only when the operation fully succeeds. -/
theorem C3_failed_install_update_removes_artifact_keeps_manifest :
    (∀ (version tag assetName owner repo : String) (now : PyDateTime)
        (env : InstallEnv) (s : SysState),
      env.downloadOk = true →
      (((install_from_binary version tag assetName owner repo now env s).1 = false →
        (install_from_binary version tag assetName owner repo now env s).2.archive
            = false ∧
        (install_from_binary version tag assetName owner repo now env s).2.manifest
            = s.manifest) ∧
       ((install_from_binary version tag assetName owner repo now env s).1 = true →
        (install_from_binary version tag assetName owner repo now env s).2.archive
            = false ∧
        (install_from_binary version tag assetName owner repo now env s).2.manifest
            = Manifest.add ⟨repo, owner ++ "/" ++ repo, version, tag, now,
                env.binaries, false, assetName⟩ s.manifest))) ∧
    (∀ (package : Package) (force : Bool) (env : UpdateEnv) (now : PyDateTime)
        (s : SysState),
      env.downloadOk = true → s.archive = false →
      (((update_package package force env now s).1 = false →
        (update_package package force env now s).2.archive = false ∧
        (update_package package force env now s).2.manifest = s.manifest) ∧
       ((update_package package force env now s).1 = true →
        (update_package package force env now s).2.archive = false ∧
        (update_package package force env now s).2.manifest
            = Manifest.add ⟨package.name, package.repo, env.releaseVersion,
                env.releaseTag, now, env.binaries, package.pinned, env.assetName⟩
              s.manifest))) := by
  constructor
  · intro version tag assetName owner repo now env s hdl
    unfold install_from_binary
    rw [hdl]
    simp only [Bool.not_true, Bool.false_eq_true, if_false]
    by_cases hck : env.checksumOk = true
    · rw [hck]
      by_cases hex : env.extractOk = true
      · rw [hex]
        simp only [Bool.not_true, Bool.false_eq_true, if_false]
        by_cases hbin : env.binaries = []
        · rw [if_pos hbin]
          exact ⟨fun _ => ⟨rfl, rfl⟩, fun hc => by cases hc⟩
        · rw [if_neg hbin]
          refine ⟨fun hc => ?_, fun _ => ⟨rfl, rfl⟩⟩
          cases hc
      · have : env.extractOk = false := by
          cases h : env.extractOk
          · rfl
          · exact absurd h hex
        rw [this]
        exact ⟨fun _ => ⟨rfl, rfl⟩, fun hc => by cases hc⟩
    · have : env.checksumOk = false := by
        cases h : env.checksumOk
        · rfl
        · exact absurd h hck
      rw [this]
      exact ⟨fun _ => ⟨rfl, rfl⟩, fun hc => by cases hc⟩
  · intro package force env now s hdl hsar
    unfold update_package
    rw [hdl]
    by_cases hpin : (package.pinned && !force) = true
    · rw [if_pos hpin]
      exact ⟨fun _ => ⟨hsar, rfl⟩, fun hc => by cases hc⟩
    rw [if_neg hpin]
    by_cases hf : env.fetchOk = true
    · rw [hf]
      simp only [Bool.not_true, Bool.false_eq_true, if_false]
      by_cases hup : (env.releaseVersion == package.version && !force) = true
      · rw [if_pos hup]
        exact ⟨fun _ => ⟨hsar, rfl⟩, fun hc => by cases hc⟩
      rw [if_neg hup]
      by_cases hassets : env.assetFound = true
      · rw [hassets]
        simp only [Bool.not_true, Bool.false_eq_true, if_false]
        by_cases hck : env.checksumOk = true
        · rw [hck]
          simp only [Bool.not_true, Bool.false_eq_true, if_false]
          by_cases hex : env.extractOk = true
          · rw [hex]
            simp only [Bool.not_true, Bool.false_eq_true, if_false]
            by_cases hbin : env.binaries = []
            · rw [if_pos hbin]
              exact ⟨fun _ => ⟨rfl, rfl⟩, fun hc => by cases hc⟩
            · rw [if_neg hbin]
              refine ⟨fun hc => ?_, fun _ => ⟨rfl, rfl⟩⟩
              cases hc
          · have : env.extractOk = false := by
              cases h : env.extractOk
              · rfl
              · exact absurd h hex
            rw [this]
            exact ⟨fun _ => ⟨rfl, rfl⟩, fun hc => by cases hc⟩
        · have : env.checksumOk = false := by
            cases h : env.checksumOk
            · rfl
            · exact absurd h hck
          rw [this]
          exact ⟨fun _ => ⟨rfl, rfl⟩, fun hc => by cases hc⟩
      · have : env.assetFound = false := by
          cases h : env.assetFound
          · rfl
          · exact absurd h hassets
        rw [this]
        exact ⟨fun _ => ⟨hsar, rfl⟩, fun hc => by cases hc⟩
    · have : env.fetchOk = false := by
        cases h : env.fetchOk
        · rfl
        · exact absurd h hf
      rw [this]
      exact ⟨fun _ => ⟨hsar, rfl⟩, fun hc => by cases hc⟩

/-- Witness for C3 at concrete inputs: a checksum failure after a
successful download (install path) deletes the artifact and leaves the
manifest untouched, and a no-binaries failure on the update path does
too. -/
theorem C3_failed_install_update_removes_artifact_keeps_manifest_witness :
    ((install_from_binary "1" "v1" "a.tar.gz" "o" "r" ⟨2026, 1, 1, 0, 0, 0, 0⟩
        ⟨true, false, true, ["x"]⟩ ⟨false, [], ⟨none, []⟩⟩).1 = false ∧
      (install_from_binary "1" "v1" "a.tar.gz" "o" "r" ⟨2026, 1, 1, 0, 0, 0, 0⟩
        ⟨true, false, true, ["x"]⟩ ⟨false, [], ⟨none, []⟩⟩).2.archive = false ∧
      (install_from_binary "1" "v1" "a.tar.gz" "o" "r" ⟨2026, 1, 1, 0, 0, 0, 0⟩
        ⟨true, false, true, ["x"]⟩ ⟨false, [], ⟨none, []⟩⟩).2.manifest
          = (⟨false, [], ⟨none, []⟩⟩ : SysState).manifest) ∧
    ((update_package ⟨"r", "o/r", "1", "v1", ⟨2026, 1, 1, 0, 0, 0, 0⟩, ["old"],
          false, "old.tar.gz"⟩ false
        ⟨true, "2", "v2", true, "new.tar.gz", true, true, true, []⟩
        ⟨2026, 1, 1, 0, 0, 0, 0⟩ ⟨false, ["old"], ⟨none, []⟩⟩).1 = false ∧
      (update_package ⟨"r", "o/r", "1", "v1", ⟨2026, 1, 1, 0, 0, 0, 0⟩, ["old"],
          false, "old.tar.gz"⟩ false
        ⟨true, "2", "v2", true, "new.tar.gz", true, true, true, []⟩
        ⟨2026, 1, 1, 0, 0, 0, 0⟩ ⟨false, ["old"], ⟨none, []⟩⟩).2.archive = false ∧
      (update_package ⟨"r", "o/r", "1", "v1", ⟨2026, 1, 1, 0, 0, 0, 0⟩, ["old"],
          false, "old.tar.gz"⟩ false
        ⟨true, "2", "v2", true, "new.tar.gz", true, true, true, []⟩
        ⟨2026, 1, 1, 0, 0, 0, 0⟩ ⟨false, ["old"], ⟨none, []⟩⟩).2.manifest
          = (⟨false, ["old"], ⟨none, []⟩⟩ : SysState).manifest) := by
  constructor
  · refine ⟨by decide, ?_⟩
    exact ((C3_failed_install_update_removes_artifact_keeps_manifest.1
      "1" "v1" "a.tar.gz" "o" "r" ⟨2026, 1, 1, 0, 0, 0, 0⟩
      ⟨true, false, true, ["x"]⟩ ⟨false, [], ⟨none, []⟩⟩ (by decide)).1 (by decide))
  · refine ⟨by decide, ?_⟩
    exact ((C3_failed_install_update_removes_artifact_keeps_manifest.2
      ⟨"r", "o/r", "1", "v1", ⟨2026, 1, 1, 0, 0, 0, 0⟩, ["old"], false, "old.tar.gz"⟩
      false ⟨true, "2", "v2", true, "new.tar.gz", true, true, true, []⟩
      ⟨2026, 1, 1, 0, 0, 0, 0⟩ ⟨false, ["old"], ⟨none, []⟩⟩ (by decide)
      (by decide)).1 (by decide))

end Hobbes
